import Mathlib

/-!
Verification of the msgstore repository (a Maildir-based message storage
engine written in Go) against its natural-language specification.

Shallow embedding conventions:
* Go strings are modelled as `List Char` (`Str`); Go byte slices as `List Nat`.
* Filesystem state is modelled explicitly (`FS`): a set of existing
  directories plus a list of stored message files.  Operations thread the
  filesystem state and the in-memory deletion map through explicitly.
* `filepath.Clean` / `filepath.Join` (Go standard library, Unix rules) are
  modelled by `goClean` / `goJoin`.
* The third-party `emersion/go-maildir` and `golang.org/x/crypto/nacl/box`
  libraries are modelled at their documented API contract (see the doc
  comments of the corresponding definitions).
-/

deriving instance DecidableEq for Except

namespace Msgstore

/-- Go strings are modelled as lists of characters. -/
abbrev Str := List Char

/-- Split a character list on a separator character; mirrors
`strings.Split` (always returns at least one, possibly empty, field). -/
def splitOnChar (c : Char) : Str → List Str
  | [] => [[]]
  | x :: xs =>
    match splitOnChar c xs with
    | [] => if x = c then [[], []] else [[x]]
    | h :: t => if x = c then [] :: h :: t else (x :: h) :: t

/-- Join a list of character lists with a separator character. -/
def joinSep (c : Char) : List Str → Str
  | [] => []
  | [s] => s
  | s :: rest => s ++ c :: joinSep c rest

/-- Segment processing loop of Go `filepath.Clean` (Unix): empty and "."
segments are dropped; ".." pops the last real segment, or is discarded at
the root of a rooted path, or is kept at the front of a relative path. -/
def cleanSegsAux (rooted : Bool) : List Str → List Str → List Str
  | stack, [] => stack.reverse
  | stack, seg :: rest =>
    if seg = [] ∨ seg = ['.'] then cleanSegsAux rooted stack rest
    else if seg = ['.', '.'] then
      match stack with
      | [] =>
        if rooted then cleanSegsAux rooted [] rest
        else cleanSegsAux rooted [['.', '.']] rest
      | top :: stack2 =>
        if rooted = false ∧ top = ['.', '.'] then
          cleanSegsAux rooted (seg :: top :: stack2) rest
        else cleanSegsAux rooted stack2 rest
    else cleanSegsAux rooted (seg :: stack) rest

/-- Whether a path is rooted (starts with `/`). -/
def isRootedPath (path : Str) : Bool := decide (path.head? = some '/')

/-- Model of Go `filepath.Clean` for Unix paths: lexical normalization
that removes `.` and empty segments and resolves `..` segments. -/
def goClean (path : Str) : Str :=
  if path = [] then ['.']
  else
    let segs := cleanSegsAux (isRootedPath path) [] (splitOnChar '/' path)
    if isRootedPath path then '/' :: joinSep '/' segs
    else if segs = [] then ['.']
    else joinSep '/' segs

/-- Model of Go `filepath.Join` for Unix paths: empty elements are
dropped, the rest are joined with `/` and the result is cleaned.  The
result is empty when every element is empty. -/
def goJoin (parts : List Str) : Str :=
  let ne := parts.filter (fun p => ¬ p = [])
  if ne = [] then [] else goClean (joinSep '/' ne)

/-- Recursion core of `replaceAll`; the fuel argument (initialised to the
input length, which every step decreases by at least one) only makes the
recursion structural, it never runs out. -/
def replaceAllAux (pat rep : Str) : Nat → Str → Str
  | _, [] => []
  | 0, s => s
  | fuel + 1, x :: xs =>
    if ¬ pat = [] ∧ pat.isPrefixOf (x :: xs) then
      rep ++ replaceAllAux pat rep fuel (xs.drop (pat.length - 1))
    else x :: replaceAllAux pat rep fuel xs

/-- Model of Go `strings.ReplaceAll` for a non-empty pattern (all the
patterns used by the store — `{domain}`, `{localpart}`, `{email}` — are
non-empty literals; an empty pattern is treated as no-op here). -/
def replaceAll (pat rep s : Str) : Str := replaceAllAux pat rep s.length s

/-- Split before/after the LAST occurrence of a character, mirroring
`strings.LastIndex`; `none` when the character does not occur. -/
def breakLastChar (c : Char) : Str → Option (Str × Str)
  | [] => none
  | x :: xs =>
    match breakLastChar c xs with
    | some (b, a) => some (x :: b, a)
    | none => if x = c then some ([], xs) else none

/-- Model of `strings.Cut` for a single-character separator: splits at the
FIRST occurrence; the `Bool` reports whether the separator was found. -/
def cutChar (c : Char) : Str → Str × Str × Bool
  | [] => ([], [], false)
  | x :: xs =>
    if x = c then ([], xs, true)
    else
      let r := cutChar c xs
      (x :: r.1, r.2.1, r.2.2)

/-- ASCII case folding of a character list; models `strings.ToLower` and
(via equality of images) `strings.EqualFold` for the ASCII names the
store compares against. -/
def lowerStr (s : Str) : Str := s.map Char.toLower

/-- Error values of the store (the `errors` package of the repository). -/
inductive MErr where
  | pathTraversal
  | invalidFolderName
  | mailboxNotFound
  | folderNotFound
  | folderExists
  | messageNotFound
  | messageDeleted
  | noRecipients
  deriving DecidableEq, Repr

/-- Configuration fields of `MaildirStore` (maildir/store.go). -/
structure MaildirStore where
  basePath : Str
  maildirSubdir : Str
  pathTemplate : Str
  deriving DecidableEq, Repr

/-- `splitEmail` (maildir/store.go): split an address at the last `@`
into local part and domain; no `@` means the whole input is the local
part. -/
def splitEmail (email : Str) : Str × Str :=
  match breakLastChar '@' email with
  | some (before, after) => (before, after)
  | none => (email, [])

/-- `expandMailbox` (maildir/store.go): apply the path template with the
`{domain}`, `{localpart}`, `{email}` placeholders; identity if no
template is configured. -/
def expandMailbox (s : MaildirStore) (mailbox : Str) : Str :=
  if s.pathTemplate = [] then mailbox
  else
    let lp := splitEmail mailbox
    let r1 := replaceAll ("{domain}".toList) lp.2 s.pathTemplate
    let r2 := replaceAll ("{localpart}".toList) lp.1 r1
    replaceAll ("{email}".toList) mailbox r2

/-- The candidate path built by `mailboxPath` before the traversal
check: the expanded mailbox joined with the base directory and the
optional maildir subdirectory. -/
def mailboxCandidate (s : MaildirStore) (mailbox : Str) : Str :=
  let expandedMailbox := expandMailbox s mailbox
  if ¬ s.maildirSubdir = [] then goJoin [s.basePath, expandedMailbox, s.maildirSubdir]
  else goJoin [s.basePath, expandedMailbox]

/-- `mailboxPath` (maildir/store.go): template expansion, join with base
directory and optional subdirectory, clean, then the separator-bounded
prefix check against the cleaned base. -/
def mailboxPath (s : MaildirStore) (mailbox : Str) : Except MErr Str :=
  let cleanBase := goClean s.basePath
  let cleanCandidate := goClean (mailboxCandidate s mailbox)
  if ¬ (cleanBase ++ ['/']).isPrefixOf (cleanCandidate ++ ['/']) then .error .pathTraversal
  else .ok cleanCandidate

/-- UTF-8 encoding of a single character (Go `[]byte(string)` byte
semantics). -/
def utf8EncodeChar (c : Char) : List Nat :=
  let n := c.toNat
  if n < 0x80 then [n]
  else if n < 0x800 then
    [0xC0 ||| (n >>> 6), 0x80 ||| (n &&& 0x3F)]
  else if n < 0x10000 then
    [0xE0 ||| (n >>> 12), 0x80 ||| ((n >>> 6) &&& 0x3F), 0x80 ||| (n &&& 0x3F)]
  else
    [0xF0 ||| (n >>> 18), 0x80 ||| ((n >>> 12) &&& 0x3F),
     0x80 ||| ((n >>> 6) &&& 0x3F), 0x80 ||| (n &&& 0x3F)]

/-- UTF-8 bytes of a string; models Go `[]byte(s)` and `len(s)`. -/
def utf8Bytes (s : Str) : List Nat := (s.map utf8EncodeChar).flatten

/-- `isValidFolderChar` (maildir/store.go): ASCII alphanumerics, hyphen
and underscore. -/
def isValidFolderChar (r : Char) : Bool :=
  ('a' ≤ r ∧ r ≤ 'z') ∨ ('A' ≤ r ∧ r ≤ 'Z') ∨ ('0' ≤ r ∧ r ≤ '9') ∨ r = '-' ∨ r = '_'

/-- `validateFolderName` (maildir/store.go): non-empty, at most 255
bytes, no leading dot, not a reserved Maildir directory name
(case-insensitively), and only characters from `isValidFolderChar`. -/
def validateFolderName (folder : Str) : Except MErr Unit :=
  if folder = [] then .error .invalidFolderName
  else if 255 < (utf8Bytes folder).length then .error .invalidFolderName
  else if folder.head? = some '.' then .error .invalidFolderName
  else if lowerStr folder = ("new".toList) ∨ lowerStr folder = ("cur".toList) ∨
      lowerStr folder = ("tmp".toList) then .error .invalidFolderName
  else if folder.all isValidFolderChar then .ok ()
  else .error .invalidFolderName

/-- `folderPath` (maildir/store.go): validate the folder name, resolve
the mailbox path, join with the dot-prefixed folder directory and re-run
the separator-bounded prefix check against the mailbox path. -/
def folderPath (s : MaildirStore) (mailbox folder : Str) : Except MErr Str :=
  match validateFolderName folder with
  | .error e => .error e
  | .ok _ =>
    match mailboxPath s mailbox with
    | .error e => .error e
    | .ok basePath =>
      let candidate := goJoin [basePath, '.' :: folder]
      let cleanBase := goClean basePath
      let cleanCandidate := goClean candidate
      if ¬ (cleanBase ++ ['/']).isPrefixOf (cleanCandidate ++ ['/']) then .error .pathTraversal
      else .ok cleanCandidate

/-- `folderOrInboxPath` (maildir/store.go): `INBOX` (compared with
`strings.EqualFold`, modelled here by ASCII case folding) selects the
mailbox root, anything else resolves as a folder. -/
def folderOrInboxPath (s : MaildirStore) (mailbox folder : Str) : Except MErr Str :=
  if lowerStr folder = lowerStr ("INBOX".toList) then mailboxPath s mailbox
  else folderPath s mailbox folder

/-- `folderDeletionKey` (maildir/store.go): composite deletion-tracking
key `mailbox + "\x00" + folder`. -/
def folderDeletionKey (mailbox folder : Str) : Str :=
  mailbox ++ (Char.ofNat 0) :: folder

/-- The in-memory deletion map (`MaildirStore.deleted`,
`map[string]map[string]bool`), modelled as a list of (key, uid) pairs
present in the map. -/
abbrev DeletedMap := List (Str × Str)

/-- `isDeleted` (maildir/store.go): membership in the deletion map. -/
def isDeleted (dm : DeletedMap) (key uid : Str) : Bool :=
  (key, uid) ∈ dm

/-- A message file stored in a maildir.  `dirp` is the maildir directory
(the parent of `new`/`cur`), `area` tells whether the file currently
lives in `new/` or `cur/`, `key` is its maildir key (the UID), `flags`
the maildir flag characters encoded in its `cur/` filename.  File
modification times are not modelled (no claim concerns dates). -/
structure Msg where
  dirp : Str
  area : Bool         -- true: in new/, false: in cur/
  key : Str
  flags : List Char
  content : List Nat
  deriving DecidableEq, Repr

/-- Filesystem model: the set of existing directories and the message
files.  Directory paths are the cleaned absolute paths the store
computes. -/
structure FS where
  dirs : List Str
  msgs : List Msg
  deriving DecidableEq, Repr

/-- `os.Stat` existence check on a directory. -/
def hasDir (fs : FS) (p : Str) : Bool := p ∈ fs.dirs

/-- The four directories making up a maildir at `path`: the directory
itself plus its `cur`, `new` and `tmp` subdirectories (`dir.Init`). -/
def maildirDirs (path : Str) : List Str :=
  [path, goJoin [path, "cur".toList], goJoin [path, "new".toList], goJoin [path, "tmp".toList]]

/-- The `cur` subdirectory used for the existence checks in the store. -/
def curDir (path : Str) : Str := goJoin [path, "cur".toList]

/-- `ensureMaildir` (maildir/store.go): resolve the mailbox path and
create the maildir structure (`os.MkdirAll` plus `dir.Init`) when its
`cur/` directory does not exist yet. -/
def ensureMaildir (s : MaildirStore) (fs : FS) (mailbox : Str) : FS × Except MErr Str :=
  match mailboxPath s mailbox with
  | .error e => (fs, .error e)
  | .ok path =>
    if hasDir fs (curDir path) then (fs, .ok path)
    else ({ fs with dirs := fs.dirs ++ maildirDirs path }, .ok path)

/-- A successful `maildir.NewDelivery` + `Close` (emersion/go-maildir):
the message is staged in `tmp/` and atomically renamed into `new/` under
a freshly generated unique name, passed in here as `name` (the random
unique-name generator is modelled by this parameter). -/
def maildirDeliver (fs : FS) (dirp : Str) (name : Str) (content : List Nat) : FS :=
  { fs with msgs := fs.msgs ++ [⟨dirp, true, name, [], content⟩] }

/-- `Dir.MessageByKey` (emersion/go-maildir): looks a message up by key
among the files in `cur/`; messages still in `new/` are not found (the
store code contains explicit fall-backs scanning `new/` for exactly this
reason). -/
def messageByKey (fs : FS) (path : Str) (uid : Str) : Option Msg :=
  fs.msgs.find? (fun m => m.dirp = path ∧ m.area = false ∧ m.key = uid)

/-- `removeMessages` (maildir/store.go): for each UID in the set, look
the message up in `cur/` and remove its file; UIDs that are not found
are skipped. -/
def removeMessages (fs : FS) (path : Str) (uids : List Str) : FS :=
  { fs with msgs := fs.msgs.filter (fun m => ¬ (m.dirp = path ∧ m.area = false ∧ m.key ∈ uids)) }

/-- `ParseRecipient` (delivery.go): split at the last `@`, then cut the
local part at the first `+`; the result is the canonical address without
the extension, plus the extension (empty when absent). -/
def parseRecipient (email : Str) : Str × Str :=
  let ld :=
    match breakLastChar '@' email with
    | some (before, after) => (before, '@' :: after)
    | none => (email, [])
  let c := cutChar '+' ld.1
  (c.1 ++ ld.2, c.2.1)

/-- `folderIfExists` (maildir/store.go): the folder path, provided the
name is valid, the path resolves, and the folder's `cur/` directory
exists on disk; no directory is ever created. -/
def folderIfExists (s : MaildirStore) (fs : FS) (mailbox folder : Str) : Option Str :=
  match folderPath s mailbox folder with
  | .error _ => none
  | .ok path => if hasDir fs (curDir path) then some path else none

/-- `ensureFolderMaildir` (maildir/store.go): first ensures the parent
mailbox maildir exists (creating it if necessary), then resolves the
folder path (which validates the folder name) and creates the folder
maildir when missing. -/
def ensureFolderMaildir (s : MaildirStore) (fs : FS) (mailbox folder : Str) :
    FS × Except MErr Str :=
  match ensureMaildir s fs mailbox with
  | (fs1, .error e) => (fs1, .error e)
  | (fs1, .ok _) =>
    match folderPath s mailbox folder with
    | .error e => (fs1, .error e)
    | .ok path =>
      if hasDir fs1 (curDir path) then (fs1, .ok path)
      else ({ fs1 with dirs := fs1.dirs ++ maildirDirs path }, .ok path)

/-- One iteration of the `Deliver` recipient loop (maildir/store.go):
parse the recipient, route to the extension's folder when the extension
is non-empty and that folder already exists, otherwise deliver to the
inbox, creating it on first delivery.  (Loading the Sieve script has no
effect on routing in the source — the parsed script is discarded — and
is not modelled.)  `name` models the unique filename generated for this
delivery. -/
def deliverOne (s : MaildirStore) (fs : FS) (name : Str) (recipient : Str)
    (data : List Nat) : Except MErr FS :=
  let parsed := parseRecipient recipient
  let dirOpt : Option Str :=
    if ¬ parsed.2 = [] then folderIfExists s fs parsed.1 parsed.2
    else none
  match dirOpt with
  | some d => .ok (maildirDeliver fs d name data)
  | none =>
    match ensureMaildir s fs parsed.1 with
    | (_, .error e) => .error e
    | (fs1, .ok path) => .ok (maildirDeliver fs1 path name data)

/-- The recipient loop of `Deliver` (maildir/store.go), threading the
filesystem, the last per-recipient error and the delivered count;
`names i` models the unique filename generated for the i-th recipient. -/
def deliverLoop (s : MaildirStore) (data : List Nat) (names : Nat → Str) :
    Nat → FS → Option MErr → Nat → List Str → FS × Option MErr × Nat
  | _, fs, lastErr, delivered, [] => (fs, lastErr, delivered)
  | i, fs, lastErr, delivered, r :: rest =>
    match deliverOne s fs (names i) r data with
    | .error e => deliverLoop s data names (i + 1) fs (some e) delivered rest
    | .ok fs1 => deliverLoop s data names (i + 1) fs1 lastErr (delivered + 1) rest

/-- `Deliver` (maildir/store.go): an empty recipient list fails with the
no-recipients error; otherwise the message is read fully into memory and
one copy is delivered per recipient; the call fails only when no
recipient was delivered, and then with the last per-recipient error. -/
def Deliver (s : MaildirStore) (names : Nat → Str) (fs : FS) (recipients : List Str)
    (data : List Nat) : FS × Except MErr Unit :=
  if recipients = [] then (fs, .error .noRecipients)
  else
    let r := deliverLoop s data names 0 fs none 0 recipients
    if r.2.2 = 0 then
      match r.2.1 with
      | some e => (r.1, .error e)
      | none => (r.1, .ok ())
    else (r.1, .ok ())

/-- `Retrieve` (maildir/store.go): fails with the deleted error when the
UID is marked deleted under the plain mailbox key, then resolves the
path, requires the mailbox's `cur/` to exist, and looks the message up
by key. -/
def Retrieve (s : MaildirStore) (dm : DeletedMap) (fs : FS) (mailbox uid : Str) :
    Except MErr (List Nat) :=
  if isDeleted dm mailbox uid then .error .messageDeleted
  else
    match mailboxPath s mailbox with
    | .error e => .error e
    | .ok path =>
      if ¬ hasDir fs (curDir path) then .error .mailboxNotFound
      else
        match messageByKey fs path uid with
        | some m => .ok m.content
        | none => .error .messageNotFound

/-- `Delete` (maildir/store.go): records the UID under the plain mailbox
key in the in-memory deletion map and returns nil; the filesystem is
not touched (the returned `FS` is the input unchanged, mirroring the
method body which contains no filesystem operation). -/
def Delete (dm : DeletedMap) (fs : FS) (mailbox uid : Str) :
    DeletedMap × FS × Except MErr Unit :=
  ((mailbox, uid) :: dm, fs, .ok ())

/-- `Expunge` (maildir/store.go): atomically takes and clears the
deletion set for the mailbox; with nothing pending it is a no-op,
otherwise it resolves the path, requires the mailbox to exist, and
permanently removes the marked messages from `cur/`. -/
def Expunge (s : MaildirStore) (dm : DeletedMap) (fs : FS) (mailbox : Str) :
    DeletedMap × FS × Except MErr Unit :=
  let deletedUIDs := (dm.filter (fun p => p.1 = mailbox)).map (fun p => p.2)
  let dm1 := dm.filter (fun p => ¬ p.1 = mailbox)
  if deletedUIDs = [] then (dm1, fs, .ok ())
  else
    match mailboxPath s mailbox with
    | .error e => (dm1, fs, .error e)
    | .ok path =>
      if ¬ hasDir fs (curDir path) then (dm1, fs, .error .mailboxNotFound)
      else (dm1, removeMessages fs path deletedUIDs, .ok ())

/-- `convertFlags` (maildir/store.go): maildir flag characters to IMAP
flag strings; unknown flags are dropped. -/
def convertFlags (flags : List Char) : List Str :=
  flags.filterMap (fun f =>
    if f = 'S' then some ("\\Seen".toList)
    else if f = 'R' then some ("\\Answered".toList)
    else if f = 'F' then some ("\\Flagged".toList)
    else if f = 'D' then some ("\\Draft".toList)
    else if f = 'T' then some ("\\Deleted".toList)
    else none)

/-- `convertFlagsFromIMAP` (maildir/store.go): IMAP flag strings to
maildir flag characters; unknown strings are silently ignored. -/
def convertFlagsFromIMAP (flags : List Str) : List Char :=
  flags.filterMap (fun f =>
    if f = ("\\Seen".toList) then some 'S'
    else if f = ("\\Answered".toList) then some 'R'
    else if f = ("\\Flagged".toList) then some 'F'
    else if f = ("\\Draft".toList) then some 'D'
    else if f = ("\\Deleted".toList) then some 'T'
    else none)

/-- Message metadata returned by listing (`msgstore.MessageInfo`; the
internal date is not modelled). -/
structure MessageInfo where
  uid : Str
  size : Nat
  flags : List Str
  deriving DecidableEq, Repr

/-- `Dir.Unseen` (emersion/go-maildir): moves every message of the
maildir from `new/` to `cur/` and reports them; their keys are
preserved. -/
def unseen (fs : FS) (path : Str) : FS × List Str :=
  let moved := (fs.msgs.filter (fun m => m.dirp = path ∧ m.area = true)).map (fun m => m.key)
  ({ fs with msgs := fs.msgs.map (fun m =>
      if m.dirp = path ∧ m.area = true then { m with area := false } else m) },
   moved)

/-- `listDir` (maildir/store.go): drain `new/` into `cur/` (collecting
the recent keys), then list all messages of `cur/`, filtering out UIDs
marked deleted under `deletionKey` and prepending the transient
`\Recent` flag for freshly drained messages. -/
def listDir (dm : DeletedMap) (fs : FS) (path : Str) (deletionKey : Str) :
    FS × List MessageInfo :=
  let u := unseen fs path
  let infos := (u.1.msgs.filter (fun m => m.dirp = path ∧ m.area = false)).filterMap
    (fun m =>
      if isDeleted dm deletionKey m.key then none
      else some ⟨m.key, m.content.length,
        (if m.key ∈ u.2 then [("\\Recent".toList)] else []) ++ convertFlags m.flags⟩)
  (u.1, infos)

/-- `CreateFolder` (maildir/store.go): fails with already-exists when the
folder's `cur/` exists; otherwise ensures the parent mailbox and creates
the folder maildir. -/
def CreateFolder (s : MaildirStore) (fs : FS) (mailbox folder : Str) :
    FS × Except MErr Unit :=
  match folderPath s mailbox folder with
  | .error e => (fs, .error e)
  | .ok path =>
    if hasDir fs (curDir path) then (fs, .error .folderExists)
    else
      match ensureMaildir s fs mailbox with
      | (fs1, .error e) => (fs1, .error e)
      | (fs1, .ok _) => ({ fs1 with dirs := fs1.dirs ++ maildirDirs path }, .ok ())

/-- Whether `p` equals `root` or lies strictly below it. -/
def underPath (root p : Str) : Bool := p = root ∨ (root ++ ['/']).isPrefixOf p

/-- `os.RemoveAll`: removes the directory tree at `root` together with
every message file stored below it. -/
def removeAll (fs : FS) (root : Str) : FS :=
  { dirs := fs.dirs.filter (fun d => ¬ underPath root d),
    msgs := fs.msgs.filter (fun m => ¬ underPath root m.dirp) }

/-- `DeleteFolder` (maildir/store.go): requires the folder to exist,
clears its deletion-tracking entry and removes the folder tree. -/
def DeleteFolder (s : MaildirStore) (dm : DeletedMap) (fs : FS) (mailbox folder : Str) :
    DeletedMap × FS × Except MErr Unit :=
  match folderPath s mailbox folder with
  | .error e => (dm, fs, .error e)
  | .ok path =>
    if ¬ hasDir fs (curDir path) then (dm, fs, .error .folderNotFound)
    else
      let key := folderDeletionKey mailbox folder
      (dm.filter (fun p => ¬ p.1 = key), removeAll fs path, .ok ())

/-- `ListInFolder` (maildir/store.go): resolve the folder path, require
it to exist, and list it under the folder deletion key. -/
def ListInFolder (s : MaildirStore) (dm : DeletedMap) (fs : FS) (mailbox folder : Str) :
    FS × Except MErr (List MessageInfo) :=
  match folderPath s mailbox folder with
  | .error e => (fs, .error e)
  | .ok path =>
    if ¬ hasDir fs (curDir path) then (fs, .error .folderNotFound)
    else
      let r := listDir dm fs path (folderDeletionKey mailbox folder)
      (r.1, .ok r.2)

/-- `StatFolder` (maildir/store.go): count and total byte size of the
listing. -/
def StatFolder (s : MaildirStore) (dm : DeletedMap) (fs : FS) (mailbox folder : Str) :
    FS × Except MErr (Nat × Nat) :=
  match ListInFolder s dm fs mailbox folder with
  | (fs1, .error e) => (fs1, .error e)
  | (fs1, .ok msgs) => (fs1, .ok (msgs.length, (msgs.map (fun m => m.size)).sum))

/-- `RetrieveFromFolder` (maildir/store.go): like `Retrieve` but keyed by
the folder deletion key and resolved through `folderPath`. -/
def RetrieveFromFolder (s : MaildirStore) (dm : DeletedMap) (fs : FS)
    (mailbox folder uid : Str) : Except MErr (List Nat) :=
  if isDeleted dm (folderDeletionKey mailbox folder) uid then .error .messageDeleted
  else
    match folderPath s mailbox folder with
    | .error e => .error e
    | .ok path =>
      if ¬ hasDir fs (curDir path) then .error .folderNotFound
      else
        match messageByKey fs path uid with
        | some m => .ok m.content
        | none => .error .messageNotFound

/-- `DeleteInFolder` (maildir/store.go): validates the folder name, then
records the UID under the composite folder key; no filesystem access. -/
def DeleteInFolder (dm : DeletedMap) (fs : FS) (mailbox folder uid : Str) :
    DeletedMap × FS × Except MErr Unit :=
  match validateFolderName folder with
  | .error e => (dm, fs, .error e)
  | .ok _ => ((folderDeletionKey mailbox folder, uid) :: dm, fs, .ok ())

/-- `ExpungeFolder` (maildir/store.go): takes and clears the pending set
for the composite folder key FIRST; with nothing pending it returns
success immediately (before any folder-name validation or filesystem
access), otherwise resolves the folder path and removes the marked
messages. -/
def ExpungeFolder (s : MaildirStore) (dm : DeletedMap) (fs : FS) (mailbox folder : Str) :
    DeletedMap × FS × Except MErr Unit :=
  let key := folderDeletionKey mailbox folder
  let deletedUIDs := (dm.filter (fun p => p.1 = key)).map (fun p => p.2)
  let dm1 := dm.filter (fun p => ¬ p.1 = key)
  if deletedUIDs = [] then (dm1, fs, .ok ())
  else
    match folderPath s mailbox folder with
    | .error e => (dm1, fs, .error e)
    | .ok path =>
      if ¬ hasDir fs (curDir path) then (dm1, fs, .error .folderNotFound)
      else (dm1, removeMessages fs path deletedUIDs, .ok ())

/-- `DeliverToFolder` (maildir/store.go): ensures the folder maildir —
which first ensures (and possibly creates) the parent mailbox, and only
then validates the folder name — and delivers one message into it. -/
def DeliverToFolder (s : MaildirStore) (fs : FS) (mailbox folder name : Str)
    (data : List Nat) : FS × Except MErr Unit :=
  match ensureFolderMaildir s fs mailbox folder with
  | (fs1, .error e) => (fs1, .error e)
  | (fs1, .ok dirp) => (maildirDeliver fs1 dirp name data, .ok ())

/-- Rewrite a path under an `os.Rename` of the directory `oldp` to
`newp`. -/
def renamePath (oldp newp p : Str) : Str :=
  if p = oldp then newp
  else if (oldp ++ ['/']).isPrefixOf p then newp ++ p.drop oldp.length
  else p

/-- `RenameFolder` (maildir/store.go): resolves and validates both
names, requires the source to exist and the destination not to, clears
(without transplanting) the deletion tracking of the old name, and
renames the directory tree. -/
def RenameFolder (s : MaildirStore) (dm : DeletedMap) (fs : FS)
    (mailbox oldName newName : Str) : DeletedMap × FS × Except MErr Unit :=
  match folderPath s mailbox oldName with
  | .error e => (dm, fs, .error e)
  | .ok oldPath =>
    match folderPath s mailbox newName with
    | .error e => (dm, fs, .error e)
    | .ok newPath =>
      if ¬ hasDir fs (curDir oldPath) then (dm, fs, .error .folderNotFound)
      else if hasDir fs (curDir newPath) then (dm, fs, .error .folderExists)
      else
        let key := folderDeletionKey mailbox oldName
        ((dm.filter (fun p => ¬ p.1 = key)),
         { dirs := fs.dirs.map (renamePath oldPath newPath),
           msgs := fs.msgs.map (fun m => { m with dirp := renamePath oldPath newPath m.dirp }) },
         .ok ())

/-- Insertion step of the flag-character sort. -/
def insertChar (c : Char) : List Char → List Char
  | [] => [c]
  | x :: xs => if c.toNat ≤ x.toNat then c :: x :: xs else x :: insertChar c xs

/-- The sort performed by `infoFromFlags` (maildir/store.go) on the flag
characters before they are encoded into the `cur/` filename. -/
def sortChars (l : List Char) : List Char := l.foldr insertChar []

/-- `moveNewToCurWithFlags` (maildir/store.go): `os.Rename` of
`new/<key>` to `cur/<key>:2,<sorted flags>`; fails when the source file
does not exist. -/
def moveNewToCurWithFlags (fs : FS) (dirPath key : Str) (flags : List Char) :
    Option FS :=
  match fs.msgs.find? (fun m => m.dirp = dirPath ∧ m.area = true ∧ m.key = key) with
  | none => none
  | some _ => some { fs with msgs := fs.msgs.map (fun m =>
      if m.dirp = dirPath ∧ m.area = true ∧ m.key = key then
        { m with area := false, flags := sortChars flags }
      else m) }

/-- `maildirNewKeys` (maildir/store.go): the set of filenames currently
in the `new/` directory. -/
def maildirNewKeys (fs : FS) (path : Str) : List Str :=
  (fs.msgs.filter (fun m => m.dirp = path ∧ m.area = true)).map (fun m => m.key)

/-- `maildirNewKey` (maildir/store.go): the single entry of `new/` that
was not present in the before-snapshot. -/
def maildirNewKey (fs : FS) (path : Str) (beforeKeys : List Str) : Except MErr Str :=
  match (maildirNewKeys fs path).find? (fun k => ¬ k ∈ beforeKeys) with
  | some k => .ok k
  | none => .error .messageNotFound

/-- `os.MkdirAll` plus `dir.Init` tolerating already-existing
directories, as used by `AppendToFolder` and `CopyMessage`. -/
def initDirs (fs : FS) (path : Str) : FS :=
  { fs with dirs := fs.dirs ++ (maildirDirs path).filter (fun d => ¬ d ∈ fs.dirs) }

/-- `AppendToFolder` (maildir/store.go): resolve the folder (or INBOX)
path, ensure the maildir structure, deliver through the staging
protocol, identify the new key by diffing `new/`, and immediately move
the file into `cur/` with the caller's flags.  `name` models the unique
filename generated by the delivery. -/
def AppendToFolder (s : MaildirStore) (fs : FS) (mailbox folder name : Str)
    (data : List Nat) (flags : List Str) : FS × Except MErr Str :=
  match folderOrInboxPath s mailbox folder with
  | .error e => (fs, .error e)
  | .ok path =>
    let fs1 := initDirs fs path
    let beforeKeys := maildirNewKeys fs1 path
    let fs2 := maildirDeliver fs1 path name data
    match maildirNewKey fs2 path beforeKeys with
    | .error e => (fs2, .error e)
    | .ok key =>
      match moveNewToCurWithFlags fs2 path key (convertFlagsFromIMAP flags) with
      | none => (fs2, .error .messageNotFound)
      | some fs3 => (fs3, .ok key)

/-- `SetFlagsInFolder` (maildir/store.go): try `cur/` first and rewrite
the flags there; otherwise move a `new/` message into `cur/` with the
requested flags; otherwise not-found. -/
def SetFlagsInFolder (s : MaildirStore) (fs : FS) (mailbox folder uid : Str)
    (flags : List Str) : FS × Except MErr Unit :=
  match folderOrInboxPath s mailbox folder with
  | .error e => (fs, .error e)
  | .ok path =>
    let mdFlags := convertFlagsFromIMAP flags
    match messageByKey fs path uid with
    | some _ =>
      ({ fs with msgs := fs.msgs.map (fun m =>
          if m.dirp = path ∧ m.area = false ∧ m.key = uid then
            { m with flags := sortChars mdFlags }
          else m) }, .ok ())
    | none =>
      match moveNewToCurWithFlags fs path uid mdFlags with
      | some fs1 => (fs1, .ok ())
      | none => (fs, .error .messageNotFound)

/-- `CopyMessage` (maildir/store.go): resolve both folder (or INBOX)
paths, ensure the destination maildir, and copy the message: from `cur/`
via go-maildir `CopyTo` (which stores the copy in the destination's
`cur/` under a freshly generated key, modelled by `newName`), or, for a
message still in `new/`, by re-running the delivery protocol into the
destination and diffing its `new/`. -/
def CopyMessage (s : MaildirStore) (fs : FS) (mailbox srcFolder uid destFolder : Str)
    (newName : Str) : FS × Except MErr Str :=
  match folderOrInboxPath s mailbox srcFolder with
  | .error e => (fs, .error e)
  | .ok srcPath =>
    match folderOrInboxPath s mailbox destFolder with
    | .error e => (fs, .error e)
    | .ok destPath =>
      let fs1 := initDirs fs destPath
      match messageByKey fs1 srcPath uid with
      | some m =>
        ({ fs1 with msgs := fs1.msgs ++ [⟨destPath, false, newName, m.flags, m.content⟩] },
         .ok newName)
      | none =>
        match fs1.msgs.find? (fun m => m.dirp = srcPath ∧ m.area = true ∧ m.key = uid) with
        | none => (fs1, .error .messageNotFound)
        | some m =>
          let beforeKeys := maildirNewKeys fs1 destPath
          let fs2 := maildirDeliver fs1 destPath newName m.content
          match maildirNewKey fs2 destPath beforeKeys with
          | .error e => (fs2, .error e)
          | .ok k => (fs2, .ok k)

/-- Model of Go `filepath.Base`: strip trailing slashes and keep the
last path component; `"."` for the empty path, `"/"` for all-slash
paths. -/
def filepathBase (p : Str) : Str :=
  if p = [] then ['.']
  else
    let q := (p.reverse.dropWhile (fun c => c = '/')).reverse
    if q = [] then ['/']
    else (q.reverse.takeWhile (fun c => ¬ c = '/')).reverse

/-- One step of the 32-bit FNV-1a hash (`hash/fnv`). -/
def fnv32aStep (h b : Nat) : Nat := ((h ^^^ b) * 16777619) % 4294967296

/-- 32-bit FNV-1a hash of a byte sequence (`hash/fnv New32a`). -/
def fnv32a (bytes : List Nat) : Nat := bytes.foldl fnv32aStep 2166136261

/-- The token computation of `UIDValidity`: strip any maildir flag
suffix after `:` from the canonical name, hash its UTF-8 bytes with
32-bit FNV-1a, and replace 0 by 1. -/
def uidTokenOfName (name0 : Str) : Nat :=
  let name := name0.takeWhile (fun c => ¬ c = ':')
  let v := fnv32a (utf8Bytes name)
  if v = 0 then 1 else v

/-- `UIDValidity` (maildir/store.go): for `INBOX` (case-insensitive) the
canonical name is the base name of the resolved mailbox path, otherwise
the folder name itself; the token is `uidTokenOfName` of that name. -/
def UIDValidity (s : MaildirStore) (mailbox folder : Str) : Except MErr Nat :=
  if lowerStr folder = lowerStr ("INBOX".toList) then
    match mailboxPath s mailbox with
    | .error e => .error e
    | .ok path => .ok (uidTokenOfName (filepathBase path))
  else .ok (uidTokenOfName folder)

/-- Errors of the encryption gateway (encrypting_delivery.go builds them
with `fmt.Errorf`; only their identity matters here). -/
inductive CErr where
  | invalidRecipientKeySize
  | invalidPrivateKeySize
  | dataTooShort
  | decryptionFailed
  deriving DecidableEq, Repr

/-- Abstract model of `golang.org/x/crypto/nacl/box`
(X25519 + XSalsa20-Poly1305 sealed box), stated at its documented
contract: `pub` derives the 32-byte public key of a private scalar
(`box.GenerateKey`), `sealBox m n pk sk` encrypts `m` under nonce `n` for
peer public key `pk` with own private key `sk`, appending a 16-byte
authentication tag (`box.Seal`), and `openBox` reverses it
(`box.Open`), failing on any authentication mismatch — in particular
when opened with a private key whose public key differs from the
intended recipient's. -/
structure NaclBox where
  pub : List Nat → List Nat
  sealBox : List Nat → List Nat → List Nat → List Nat → List Nat
  openBox : List Nat → List Nat → List Nat → List Nat → Option (List Nat)

/-- The documented contract of `nacl/box` that the store relies upon:
public keys are 32 bytes, sealing appends a 16-byte tag, opening a
sealed box with the matching key pair recovers the message, and opening
with a private key whose public key differs from the intended
recipient's fails. -/
structure NaclBoxProps (B : NaclBox) : Prop where
  pub_len : ∀ sk, (B.pub sk).length = 32
  seal_len : ∀ m n pk sk, (B.sealBox m n pk sk).length = m.length + 16
  open_seal : ∀ m n skR skE,
    B.openBox (B.sealBox m n (B.pub skR) skE) n (B.pub skE) skR = some m
  open_mismatch : ∀ m n skR skE skR2, ¬ B.pub skR2 = B.pub skR →
    B.openBox (B.sealBox m n (B.pub skR) skE) n (B.pub skE) skR2 = none

/-- `encryptMessage` (encrypting_delivery.go): reject a recipient public
key that is not exactly 32 bytes; otherwise generate an ephemeral key
pair and a 24-byte nonce (both modelled as the explicit arguments
`ephPriv` and `nonce`, standing for the values read from the system
random source) and produce
`ephemeral_pub(32) || nonce(24) || box.Seal(message)`. -/
def encryptMessage (B : NaclBox) (ephPriv nonce message recipientPubKey : List Nat) :
    Except CErr (List Nat) :=
  if ¬ recipientPubKey.length = 32 then .error .invalidRecipientKeySize
  else
    let ephemeralPub := B.pub ephPriv
    let ciphertext := B.sealBox message nonce recipientPubKey ephPriv
    .ok (ephemeralPub ++ nonce ++ ciphertext)

/-- `DecryptMessage` (encrypting_delivery.go): reject a private key that
is not exactly 32 bytes and any input shorter than
`PublicKeySize + NonceSize + box.Overhead = 32 + 24 + 16 = 72` bytes;
otherwise split the input into ephemeral public key, nonce and
ciphertext and open the box, failing hard (with no partial plaintext)
when authentication fails. -/
def DecryptMessage (B : NaclBox) (encryptedData privateKey : List Nat) :
    Except CErr (List Nat) :=
  if ¬ privateKey.length = 32 then .error .invalidPrivateKeySize
  else if encryptedData.length < 32 + 24 + 16 then .error .dataTooShort
  else
    match B.openBox (encryptedData.drop 56) ((encryptedData.drop 32).take 24)
        (encryptedData.take 32) privateKey with
    | some plaintext => .ok plaintext
    | none => .error .decryptionFailed

/-- `extractUsername` (encrypting_delivery.go): the local part before
the FIRST `@`, or the whole address when there is none. -/
def extractUsername (email : Str) : Str := (cutChar '@' email).1

/-- The key-lookup capability consumed by the encrypting delivery agent
(`KeyProvider` with `HasEncryption`, crypto.go and the auth interface);
an error outcome is modelled as `Except.error ()`. -/
structure KeyProvider where
  hasEncryption : Str → Except Unit Bool
  getPublicKey : Str → Except Unit (List Nat)

/-- The recipient-classification loop of `EncryptingDeliveryAgent.Deliver`
(encrypting_delivery.go): an error from the encryption-enabled query or
from the key lookup demotes the recipient to plaintext; only recipients
with encryption enabled and a fetched key are grouped for encryption
(in order, with their keys). -/
def classifyRecipients (kp : KeyProvider) : List Str → List Str × List (Str × List Nat)
  | [] => ([], [])
  | r :: rest =>
    let acc := classifyRecipients kp rest
    match kp.hasEncryption (extractUsername r) with
    | .error _ => (r :: acc.1, acc.2)
    | .ok false => (r :: acc.1, acc.2)
    | .ok true =>
      match kp.getPublicKey (extractUsername r) with
      | .error _ => (r :: acc.1, acc.2)
      | .ok k => (acc.1, (r, k) :: acc.2)

/-- One delivery performed through the wrapped (underlying) delivery
agent: the envelope's recipient list, whether the envelope carries
encryption metadata, and the payload written. -/
structure DeliveryCall where
  recipients : List Str
  encrypted : Bool
  payload : List Nat
  deriving DecidableEq, Repr

/-- The per-recipient encrypted-delivery loop of
`EncryptingDeliveryAgent.Deliver`: the i-th encrypted recipient gets its
own fresh ephemeral private key `(rand i).1` and nonce `(rand i).2`; an
encryption error aborts the remaining deliveries and fails the call.
The underlying agent itself is modelled as always succeeding. -/
def encryptedDeliveries (B : NaclBox) (data : List Nat) (rand : Nat → List Nat × List Nat) :
    Nat → List (Str × List Nat) → List DeliveryCall × Except CErr Unit
  | _, [] => ([], .ok ())
  | i, (r, k) :: rest =>
    match encryptMessage B (rand i).1 (rand i).2 data k with
    | .error e => ([], .error e)
    | .ok payload =>
      let acc := encryptedDeliveries B data rand (i + 1) rest
      (⟨[r], true, payload⟩ :: acc.1, acc.2)

/-- `EncryptingDeliveryAgent.Deliver` (encrypting_delivery.go): classify
the recipients, deliver one plaintext copy to the whole plaintext group
(when non-empty, with the encryption metadata cleared), then one
encrypted copy per encrypted recipient.  The result is the list of
deliveries handed to the underlying agent together with the call's
outcome. -/
def encryptingDeliver (B : NaclBox) (kp : KeyProvider) (rand : Nat → List Nat × List Nat)
    (recipients : List Str) (data : List Nat) : List DeliveryCall × Except CErr Unit :=
  let c := classifyRecipients kp recipients
  let plainCalls : List DeliveryCall := if c.1 = [] then [] else [⟨c.1, false, data⟩]
  let enc := encryptedDeliveries B data rand 0 c.2
  (plainCalls ++ enc.1, enc.2)

/-- Normalisation of a private scalar to a 32-entry byte list; used by
the concrete sealed-box instance below as its public-key derivation. -/
def normKey (sk : List Nat) : List Nat :=
  ((sk ++ List.replicate 32 0).take 32).map (fun b => b % 256)

/-- Little-endian base-256 value of a byte list. -/
def encBytes : List Nat → Nat
  | [] => 0
  | b :: r => b + 256 * encBytes r

/-- The 16-byte authentication tag of the concrete sealed-box instance:
a symmetric (unordered) pairing of the two key codes, padded to 16
entries. -/
def tagOf (a b : Nat) : List Nat := min a b :: max a b :: List.replicate 14 0

/-- Key code of a public key as seen by the concrete instance. -/
def keyCode (pk : List Nat) : Nat := encBytes (normKey pk)

/-- Sealing of the concrete instance: the plaintext followed by the
16-byte symmetric tag built from both key codes. -/
def toySeal (m _n pk sk : List Nat) : List Nat :=
  m ++ tagOf (keyCode pk) (encBytes (normKey sk))

/-- Opening of the concrete instance: split off the 16-byte tag and
verify it against the tag recomputed from the presented keys. -/
def toyOpen (ct _n pkE skR : List Nat) : Option (List Nat) :=
  if ct.length < 16 then none
  else
    let m := ct.take (ct.length - 16)
    let tag := ct.drop (ct.length - 16)
    if tag = tagOf (keyCode pkE) (encBytes (normKey skR)) then some m else none

/-- A concrete `NaclBox` instance witnessing that the abstract sealed-box
contract is satisfiable. -/
def toyBox : NaclBox where
  pub := normKey
  sealBox := toySeal
  openBox := toyOpen

/-- Separator-bounded prefix match: `p` lies at or below `base`
(`HasPrefix(p + "/", base + "/")`, the check the store performs). -/
def sepBoundedUnder (base p : Str) : Bool := (base ++ ['/']).isPrefixOf (p ++ ['/'])

/-- Modelled from the spec: a STRICT descendant under the
path-separator-bounded prefix match — below the base and not the base
itself. -/
def strictDescendant (base p : Str) : Bool := sepBoundedUnder base p ∧ ¬ p = base
/-- A concrete store configuration used by witnesses: base directory
`/base`, no maildir subdirectory, no path template. -/
def demoStore : MaildirStore := ⟨"/base".toList, [], []⟩
/-- A concrete filesystem used by witnesses: the mailbox `alice` exists
and holds one message `u1` in `cur/`. -/
def demoFS : FS :=
  { dirs := maildirDirs ("/base/alice".toList),
    msgs := [⟨"/base/alice".toList, false, "u1".toList, [], [72, 105]⟩] }
/-- The concrete 80-byte encrypted payload used by the C3
counterexample: the encryption of an 8-byte message under the all-zero
key pair of the concrete sealed-box instance. -/
def c3data : List Nat :=
  List.replicate 32 0 ++ List.replicate 24 0 ++
    ([1, 2, 3, 4, 5, 6, 7, 8] ++ List.replicate 16 0)
/-- Whether one recipient of a `Deliver` call can be delivered: the only
failure source in the per-recipient loop is path resolution of the
parsed base address (a traversal rejection), which depends neither on
the filesystem nor on the other recipients. -/
def recipOK (s : MaildirStore) (r : Str) : Bool :=
  (mailboxPath s (parseRecipient r).1).isOk
/-- A recipient whose encryption-enabled query or public-key lookup
errors out. -/
def lookupErrored (kp : KeyProvider) (r : Str) : Prop :=
  kp.hasEncryption (extractUsername r) = .error () ∨
  (kp.hasEncryption (extractUsername r) = .ok true ∧
   kp.getPublicKey (extractUsername r) = .error ())
/-- A concrete key provider for the C6 witness: user `err` errors on the
encryption query, `enc` has encryption enabled with a 32-byte key, and
everyone else is plaintext. -/
def demoKP : KeyProvider where
  hasEncryption := fun u =>
    if u = ("err".toList) then .error ()
    else if u = ("enc".toList) then .ok true
    else .ok false
  getPublicKey := fun u =>
    if u = ("enc".toList) then .ok (List.replicate 32 5) else .error ()
/-- The deterministic randomness source used by the C6 witness. -/
def demoRand : Nat → List Nat × List Nat :=
  fun i => (List.replicate 32 i, List.replicate 24 0)

theorem tagOf_comm (a b : Nat) : tagOf a b = tagOf b a := by
  simp [tagOf, Nat.min_comm, Nat.max_comm]

theorem tagOf_inj_right {x b b2 : Nat} (h : tagOf x b = tagOf x b2) : b = b2 := by
  simp only [tagOf, List.cons.injEq] at h
  have h1 := h.1
  have h2 := h.2.1
  have := min_add_max x b
  have := min_add_max x b2
  omega

theorem normKey_length (sk : List Nat) : (normKey sk).length = 32 := by
  simp [normKey, List.length_take, List.length_append]

theorem normKey_lt (sk : List Nat) : ∀ b ∈ normKey sk, b < 256 := by
  intro b hb
  simp only [normKey, List.mem_map] at hb
  obtain ⟨a, _, rfl⟩ := hb
  exact Nat.mod_lt _ (by omega)

theorem normKey_idem (sk : List Nat) : normKey (normKey sk) = normKey sk := by
  have hlen := normKey_length sk
  have h1 : ((normKey sk ++ List.replicate 32 0).take 32) = normKey sk := by
    rw [List.take_append_of_le_length (by omega), ← hlen, List.take_length]
  show ((normKey sk ++ List.replicate 32 0).take 32).map (fun b => b % 256) = normKey sk
  rw [h1]
  conv_rhs => rw [← List.map_id (normKey sk)]
  apply List.map_congr_left
  intro a ha
  exact Nat.mod_eq_of_lt (normKey_lt sk a ha)

theorem encBytes_inj : ∀ l1 l2 : List Nat, l1.length = l2.length →
    (∀ b ∈ l1, b < 256) → (∀ b ∈ l2, b < 256) → encBytes l1 = encBytes l2 → l1 = l2 := by
  intro l1
  induction l1 with
  | nil => intro l2 hlen _ _ _; cases l2 with
    | nil => rfl
    | cons b r => simp at hlen
  | cons b1 r1 ih =>
    intro l2 hlen hb1 hb2 henc
    cases l2 with
    | nil => simp at hlen
    | cons b2 r2 =>
      simp only [encBytes] at henc
      have hbb1 : b1 < 256 := hb1 b1 (List.mem_cons_self _ _)
      have hbb2 : b2 < 256 := hb2 b2 (List.mem_cons_self _ _)
      have hb : b1 = b2 ∧ encBytes r1 = encBytes r2 := by omega
      have hr : r1 = r2 := ih r2 (by simpa using hlen)
        (fun b hb => hb1 b (List.mem_cons_of_mem _ hb))
        (fun b hb => hb2 b (List.mem_cons_of_mem _ hb)) hb.2
      rw [hb.1, hr]

/-- Key codes determine normalised keys. -/
theorem keyCode_normKey_inj (sk1 sk2 : List Nat)
    (h : encBytes (normKey sk1) = encBytes (normKey sk2)) : normKey sk1 = normKey sk2 :=
  encBytes_inj _ _ (by rw [normKey_length, normKey_length]) (normKey_lt sk1) (normKey_lt sk2) h

/-- The concrete instance satisfies the sealed-box contract. -/
theorem toyBox_props : NaclBoxProps toyBox where
  pub_len := normKey_length
  seal_len := by intro m n pk sk; simp [toyBox, toySeal, tagOf]
  open_seal := by
    intro m n skR skE
    show toyOpen (toySeal m n (normKey skR) skE) n (normKey skE) skR = some m
    have hlen : (toySeal m n (normKey skR) skE).length = m.length + 16 := by
      simp [toySeal, tagOf]
    simp only [toyOpen, hlen]
    rw [if_neg (by omega)]
    have htake : (toySeal m n (normKey skR) skE).take (m.length + 16 - 16) = m := by
      simp only [toySeal, Nat.add_sub_cancel]
      exact List.take_left m _
    have hdrop : (toySeal m n (normKey skR) skE).drop (m.length + 16 - 16) =
        tagOf (keyCode (normKey skR)) (encBytes (normKey skE)) := by
      simp only [toySeal, Nat.add_sub_cancel]
      exact List.drop_left m _
    rw [htake, hdrop]
    rw [show keyCode (normKey skR) = encBytes (normKey skR) by
      simp [keyCode, normKey_idem]]
    rw [show keyCode (normKey skE) = encBytes (normKey skE) by
      simp [keyCode, normKey_idem]]
    rw [tagOf_comm]
    simp
  open_mismatch := by
    intro m n skR skE skR2 hne
    show toyOpen (toySeal m n (normKey skR) skE) n (normKey skE) skR2 = none
    have hlen : (toySeal m n (normKey skR) skE).length = m.length + 16 := by
      simp [toySeal, tagOf]
    simp only [toyOpen, hlen]
    rw [if_neg (by omega)]
    have hdrop : (toySeal m n (normKey skR) skE).drop (m.length + 16 - 16) =
        tagOf (keyCode (normKey skR)) (encBytes (normKey skE)) := by
      simp only [toySeal, Nat.add_sub_cancel]
      exact List.drop_left m _
    rw [hdrop]
    rw [if_neg]
    intro heq
    rw [show keyCode (normKey skR) = encBytes (normKey skR) by
      simp [keyCode, normKey_idem]] at heq
    rw [show keyCode (normKey skE) = encBytes (normKey skE) by
      simp [keyCode, normKey_idem]] at heq
    rw [tagOf_comm (encBytes (normKey skR)) _] at heq
    have := tagOf_inj_right heq
    exact hne ((keyCode_normKey_inj skR skR2 this).symm)

theorem isPrefixOf_trans {a b c : Str} (h1 : a.isPrefixOf b = true)
    (h2 : b.isPrefixOf c = true) : a.isPrefixOf c = true := by
  rw [List.isPrefixOf_iff_prefix] at h1 h2 ⊢
  exact h1.trans h2

theorem splitOnChar_ne_nil (c : Char) (p : Str) : ¬ splitOnChar c p = [] := by
  induction p with
  | nil => simp [splitOnChar]
  | cons x xs ih =>
    cases h : splitOnChar c xs with
    | nil => exact absurd h ih
    | cons h2 t =>
      simp only [splitOnChar, h]
      split <;> simp

theorem mem_splitOnChar (c : Char) (p : Str) : ∀ s ∈ splitOnChar c p, ¬ c ∈ s := by
  induction p with
  | nil =>
    intro s hs
    simp only [splitOnChar, List.mem_singleton] at hs
    simp [hs]
  | cons x xs ih =>
    intro s hs
    cases h : splitOnChar c xs with
    | nil => exact absurd h (splitOnChar_ne_nil c xs)
    | cons h2 t =>
      simp only [splitOnChar, h] at hs
      by_cases hx : x = c
      · rw [if_pos hx] at hs
        rcases List.mem_cons.mp hs with rfl | hs2
        · simp
        · exact ih s (h ▸ hs2)
      · rw [if_neg hx] at hs
        rcases List.mem_cons.mp hs with rfl | hs2
        · intro hc
          rcases List.mem_cons.mp hc with heq | hc2
          · exact hx heq.symm
          · exact ih h2 (h ▸ List.mem_cons_self h2 t) hc2
        · exact ih s (h ▸ List.mem_cons_of_mem h2 hs2)

theorem splitOnChar_single (c : Char) (s : Str) (h : ¬ c ∈ s) : splitOnChar c s = [s] := by
  induction s with
  | nil => rfl
  | cons x xs ih =>
    have hx : ¬ x = c := fun he => h (he ▸ List.mem_cons_self x xs)
    have hxs : ¬ c ∈ xs := fun hc => h (List.mem_cons_of_mem x hc)
    simp only [splitOnChar, ih hxs]
    rw [if_neg hx]

theorem splitOnChar_cons_self (c : Char) (l : Str) :
    splitOnChar c (c :: l) = [] :: splitOnChar c l := by
  simp only [splitOnChar]
  cases h : splitOnChar c l with
  | nil => exact absurd h (splitOnChar_ne_nil c l)
  | cons h2 t => simp

theorem splitOnChar_append (c : Char) (s t : Str) (h : ¬ c ∈ s) :
    splitOnChar c (s ++ c :: t) = s :: splitOnChar c t := by
  induction s with
  | nil => simpa using splitOnChar_cons_self c t
  | cons x xs ih =>
    have hx : ¬ x = c := fun he => h (he ▸ List.mem_cons_self x xs)
    have hxs : ¬ c ∈ xs := fun hc => h (List.mem_cons_of_mem x hc)
    show splitOnChar c (x :: (xs ++ c :: t)) = (x :: xs) :: splitOnChar c t
    simp only [splitOnChar, ih hxs]
    rw [if_neg hx]

theorem joinSep_split_roundtrip (c : Char) : ∀ segs : List Str, ¬ segs = [] →
    (∀ s ∈ segs, ¬ c ∈ s) → splitOnChar c (joinSep c segs) = segs := by
  intro segs
  induction segs with
  | nil => intro h; exact absurd rfl h
  | cons s rest ih =>
    intro _ hmem
    cases rest with
    | nil => exact splitOnChar_single c s (hmem s (by simp))
    | cons s2 rest2 =>
      show splitOnChar c (s ++ c :: joinSep c (s2 :: rest2)) = s :: s2 :: rest2
      rw [splitOnChar_append c s _ (hmem s (by simp))]
      rw [ih (by simp) (fun x hx => hmem x (List.mem_cons_of_mem s hx))]

theorem joinSep_ne_nil (c : Char) (s : Str) (rest : List Str) (h : ¬ s = []) :
    ¬ joinSep c (s :: rest) = [] := by
  cases rest with
  | nil => exact h
  | cons s2 rest2 =>
    show ¬ s ++ c :: joinSep c (s2 :: rest2) = []
    simp

theorem joinSep_head (c : Char) (s : Str) (rest : List Str) (h : ¬ s = []) :
    (joinSep c (s :: rest)).head? = s.head? := by
  cases rest with
  | nil => rfl
  | cons s2 rest2 =>
    show (s ++ c :: joinSep c (s2 :: rest2)).head? = s.head?
    cases s with
    | nil => exact absurd rfl h
    | cons a s3 => rfl

theorem cleanSegsAux_normal (rooted : Bool) : ∀ (segs stack : List Str),
    (∀ s ∈ segs, ¬ s = [] ∧ ¬ s = ['.'] ∧ ¬ s = ['.', '.']) →
    cleanSegsAux rooted stack segs = stack.reverse ++ segs := by
  intro segs
  induction segs with
  | nil => intro stack _; simp [cleanSegsAux]
  | cons seg rest ih =>
    intro stack hn
    obtain ⟨h1, h2, h3⟩ := hn seg (List.mem_cons_self seg rest)
    simp only [cleanSegsAux]
    rw [if_neg (by tauto), if_neg h3]
    rw [ih (seg :: stack) (fun s hs => hn s (List.mem_cons_of_mem seg hs))]
    simp

theorem cleanSegsAux_dd_block : ∀ (k : Nat) (segs : List Str) (j : Nat),
    (∀ s ∈ segs, ¬ s = [] ∧ ¬ s = ['.'] ∧ ¬ s = ['.', '.']) →
    cleanSegsAux false (List.replicate j (['.', '.'] : Str))
      (List.replicate k (['.', '.'] : Str) ++ segs) =
    List.replicate (j + k) (['.', '.'] : Str) ++ segs := by
  intro k
  induction k with
  | zero =>
    intro segs j hn
    simp only [List.replicate_zero, List.nil_append, Nat.add_zero]
    rw [cleanSegsAux_normal false segs _ hn, List.reverse_replicate]
  | succ k ih =>
    intro segs j hn
    rw [List.replicate_succ, List.cons_append]
    cases j with
    | zero =>
      show cleanSegsAux false (List.replicate 1 (['.', '.'] : Str))
          (List.replicate k (['.', '.'] : Str) ++ segs) =
        List.replicate (0 + (k + 1)) (['.', '.'] : Str) ++ segs
      rw [ih segs 1 hn]
      rw [show 1 + k = 0 + (k + 1) from by omega]
    | succ j2 =>
      rw [List.replicate_succ]
      show cleanSegsAux false (List.replicate (j2 + 2) (['.', '.'] : Str))
          (List.replicate k (['.', '.'] : Str) ++ segs) =
        List.replicate (j2 + 1 + (k + 1)) (['.', '.'] : Str) ++ segs
      rw [ih segs (j2 + 2) hn]
      rw [show j2 + 2 + k = j2 + 1 + (k + 1) from by omega]

theorem cleanSegsAux_members (rooted : Bool) : ∀ (segs stack : List Str),
    ∀ s ∈ cleanSegsAux rooted stack segs, s ∈ stack ∨ s ∈ segs ∨ s = ['.', '.'] := by
  intro segs
  induction segs with
  | nil =>
    intro stack s hs
    simp only [cleanSegsAux] at hs
    exact Or.inl (List.mem_reverse.mp hs)
  | cons seg rest ih =>
    intro stack s hs
    cases stack with
    | nil =>
      simp only [cleanSegsAux] at hs
      by_cases h1 : seg = [] ∨ seg = ['.']
      · rw [if_pos h1] at hs
        rcases ih [] s hs with h | h | h
        · exact Or.inl h
        · exact Or.inr (Or.inl (List.mem_cons_of_mem _ h))
        · exact Or.inr (Or.inr h)
      · rw [if_neg h1] at hs
        by_cases h2 : seg = ['.', '.']
        · rw [if_pos h2] at hs
          by_cases hr : rooted = true
          · rw [if_pos hr] at hs
            rcases ih [] s hs with h | h | h
            · exact absurd h (List.not_mem_nil s)
            · exact Or.inr (Or.inl (List.mem_cons_of_mem _ h))
            · exact Or.inr (Or.inr h)
          · rw [if_neg hr] at hs
            rcases ih [['.', '.']] s hs with h | h | h
            · exact Or.inr (Or.inr (List.mem_singleton.mp h))
            · exact Or.inr (Or.inl (List.mem_cons_of_mem _ h))
            · exact Or.inr (Or.inr h)
        · rw [if_neg h2] at hs
          rcases ih [seg] s hs with h | h | h
          · exact Or.inr (Or.inl ((List.mem_singleton.mp h) ▸ List.mem_cons_self seg rest))
          · exact Or.inr (Or.inl (List.mem_cons_of_mem _ h))
          · exact Or.inr (Or.inr h)
    | cons top stack2 =>
      simp only [cleanSegsAux] at hs
      by_cases h1 : seg = [] ∨ seg = ['.']
      · rw [if_pos h1] at hs
        rcases ih (top :: stack2) s hs with h | h | h
        · exact Or.inl h
        · exact Or.inr (Or.inl (List.mem_cons_of_mem _ h))
        · exact Or.inr (Or.inr h)
      · rw [if_neg h1] at hs
        by_cases h2 : seg = ['.', '.']
        · rw [if_pos h2] at hs
          by_cases hc : rooted = false ∧ top = ['.', '.']
          · rw [if_pos hc] at hs
            rcases ih (seg :: top :: stack2) s hs with h | h | h
            · rcases List.mem_cons.mp h with heq | h4
              · exact Or.inr (Or.inr (heq.trans h2))
              · exact Or.inl h4
            · exact Or.inr (Or.inl (List.mem_cons_of_mem _ h))
            · exact Or.inr (Or.inr h)
          · rw [if_neg hc] at hs
            rcases ih stack2 s hs with h | h | h
            · exact Or.inl (List.mem_cons_of_mem _ h)
            · exact Or.inr (Or.inl (List.mem_cons_of_mem _ h))
            · exact Or.inr (Or.inr h)
        · rw [if_neg h2] at hs
          rcases ih (seg :: top :: stack2) s hs with h | h | h
          · rcases List.mem_cons.mp h with heq | h4
            · exact Or.inr (Or.inl (heq ▸ List.mem_cons_self seg rest))
            · exact Or.inl h4
          · exact Or.inr (Or.inl (List.mem_cons_of_mem _ h))
          · exact Or.inr (Or.inr h)

theorem cleanSegsAux_rooted_normal : ∀ (segs stack : List Str),
    (∀ s ∈ stack, ¬ s = [] ∧ ¬ s = ['.'] ∧ ¬ s = ['.', '.']) →
    ∀ s ∈ cleanSegsAux true stack segs, ¬ s = [] ∧ ¬ s = ['.'] ∧ ¬ s = ['.', '.'] := by
  intro segs
  induction segs with
  | nil =>
    intro stack h s hs
    simp only [cleanSegsAux] at hs
    exact h s (List.mem_reverse.mp hs)
  | cons seg rest ih =>
    intro stack h s hs
    have hpush : ∀ hs2 : s ∈ cleanSegsAux true (seg :: stack) rest,
        (¬ (seg = [] ∨ seg = ['.'])) → ¬ seg = ['.', '.'] →
        ¬ s = [] ∧ ¬ s = ['.'] ∧ ¬ s = ['.', '.'] := by
      intro hs2 h1 h2
      refine ih (seg :: stack) ?_ s hs2
      intro x hx
      rcases List.mem_cons.mp hx with heq | h4
      · subst heq
        exact ⟨fun he => h1 (Or.inl he), fun he => h1 (Or.inr he), h2⟩
      · exact h x h4
    cases stack with
    | nil =>
      simp only [cleanSegsAux] at hs
      by_cases h1 : seg = [] ∨ seg = ['.']
      · rw [if_pos h1] at hs
        exact ih [] h s hs
      · rw [if_neg h1] at hs
        by_cases h2 : seg = ['.', '.']
        · rw [if_pos h2] at hs
          rw [if_pos trivial] at hs
          exact ih [] (by intro x hx; exact absurd hx (List.not_mem_nil x)) s hs
        · rw [if_neg h2] at hs
          exact hpush hs h1 h2
    | cons top stack2 =>
      simp only [cleanSegsAux] at hs
      by_cases h1 : seg = [] ∨ seg = ['.']
      · rw [if_pos h1] at hs
        exact ih (top :: stack2) h s hs
      · rw [if_neg h1] at hs
        by_cases h2 : seg = ['.', '.']
        · rw [if_pos h2, if_neg (by simp)] at hs
          exact ih stack2 (fun x hx => h x (List.mem_cons_of_mem _ hx)) s hs
        · rw [if_neg h2] at hs
          exact hpush hs h1 h2

theorem cleanSegsAux_nonrooted_shape : ∀ (segs ns : List Str) (k : Nat),
    (∀ s ∈ ns, ¬ s = [] ∧ ¬ s = ['.'] ∧ ¬ s = ['.', '.']) →
    ∃ k2 ns2, cleanSegsAux false (ns ++ List.replicate k (['.', '.'] : Str)) segs =
      List.replicate k2 (['.', '.'] : Str) ++ ns2 ∧
      (∀ s ∈ ns2, ¬ s = [] ∧ ¬ s = ['.'] ∧ ¬ s = ['.', '.']) := by
  intro segs
  induction segs with
  | nil =>
    intro ns k h
    refine ⟨k, ns.reverse, ?_, fun s hs => h s (List.mem_reverse.mp hs)⟩
    simp only [cleanSegsAux]
    rw [List.reverse_append, List.reverse_replicate]
  | cons seg rest ih =>
    intro ns k h
    have hpushgoal : (¬ (seg = [] ∨ seg = ['.'])) → ¬ seg = ['.', '.'] →
        ∃ k2 ns2, cleanSegsAux false ((seg :: ns) ++ List.replicate k (['.', '.'] : Str)) rest =
          List.replicate k2 (['.', '.'] : Str) ++ ns2 ∧
          (∀ s ∈ ns2, ¬ s = [] ∧ ¬ s = ['.'] ∧ ¬ s = ['.', '.']) := by
      intro h1 h2
      refine ih (seg :: ns) k ?_
      intro x hx
      rcases List.mem_cons.mp hx with heq | h4
      · subst heq
        exact ⟨fun he => h1 (Or.inl he), fun he => h1 (Or.inr he), h2⟩
      · exact h x h4
    cases ns with
    | nil =>
      cases k with
      | zero =>
        simp only [List.nil_append, List.replicate_zero, cleanSegsAux]
        by_cases h1 : seg = [] ∨ seg = ['.']
        · rw [if_pos h1]
          exact ih [] 0 h
        · rw [if_neg h1]
          by_cases h2 : seg = ['.', '.']
          · rw [if_pos h2]
            have := ih [] 1 (by intro x hx; exact absurd hx (List.not_mem_nil x))
            simpa using this
          · rw [if_neg h2]
            simpa using hpushgoal h1 h2
      | succ k3 =>
        rw [List.nil_append, List.replicate_succ]
        simp only [cleanSegsAux]
        by_cases h1 : seg = [] ∨ seg = ['.']
        · rw [if_pos h1]
          have := ih [] (k3 + 1) h
          simpa [List.replicate_succ] using this
        · rw [if_neg h1]
          by_cases h2 : seg = ['.', '.']
          · subst h2
            rw [if_pos rfl, if_pos (by simp)]
            have := ih [] (k3 + 2) (by intro x hx; exact absurd hx (List.not_mem_nil x))
            simpa [List.replicate_succ] using this
          · rw [if_neg h2]
            have := hpushgoal h1 h2
            simpa [List.replicate_succ] using this
    | cons n0 ns3 =>
      have hn0 := h n0 (List.mem_cons_self n0 ns3)
      rw [List.cons_append]
      simp only [cleanSegsAux]
      by_cases h1 : seg = [] ∨ seg = ['.']
      · rw [if_pos h1]
        have := ih (n0 :: ns3) k h
        simpa using this
      · rw [if_neg h1]
        by_cases h2 : seg = ['.', '.']
        · rw [if_pos h2, if_neg (by intro hc; exact hn0.2.2 hc.2)]
          exact ih ns3 k (fun x hx => h x (List.mem_cons_of_mem _ hx))
        · rw [if_neg h2]
          have := hpushgoal h1 h2
          simpa using this

theorem goClean_idem (p : Str) : goClean (goClean p) = goClean p := by
  by_cases hp : p = []
  · subst hp; decide
  · have hsplit_mem : ∀ s ∈ splitOnChar '/' p, ¬ '/' ∈ s := mem_splitOnChar '/' p
    by_cases hr : isRootedPath p = true
    · -- rooted path
      have hgc : goClean p =
          '/' :: joinSep '/' (cleanSegsAux true [] (splitOnChar '/' p)) := by
        unfold goClean
        rw [if_neg hp, hr]
        simp
      have hnormal : ∀ s ∈ cleanSegsAux true [] (splitOnChar '/' p),
          ¬ s = [] ∧ ¬ s = ['.'] ∧ ¬ s = ['.', '.'] :=
        cleanSegsAux_rooted_normal (splitOnChar '/' p) []
          (by intro x hx; exact absurd hx (List.not_mem_nil x))
      have hslash : ∀ s ∈ cleanSegsAux true [] (splitOnChar '/' p), ¬ '/' ∈ s := by
        intro s hs
        rcases cleanSegsAux_members true (splitOnChar '/' p) [] s hs with h | h | h
        · exact absurd h (List.not_mem_nil s)
        · exact hsplit_mem s h
        · subst h; decide
      by_cases hS : cleanSegsAux true [] (splitOnChar '/' p) = []
      · rw [hgc, hS]; decide
      · rw [hgc]
        have hout_ne : ¬ ('/' :: joinSep '/' (cleanSegsAux true [] (splitOnChar '/' p))) = [] := by
          simp
        have hout_rooted : isRootedPath
            ('/' :: joinSep '/' (cleanSegsAux true [] (splitOnChar '/' p))) = true := by
          simp [isRootedPath]
        rw [show goClean ('/' :: joinSep '/' (cleanSegsAux true [] (splitOnChar '/' p))) =
            '/' :: joinSep '/' (cleanSegsAux true []
              (splitOnChar '/' ('/' :: joinSep '/' (cleanSegsAux true [] (splitOnChar '/' p)))))
            from by unfold goClean; rw [if_neg hout_ne, hout_rooted]; simp]
        congr 1
        rw [splitOnChar_cons_self]
        rw [joinSep_split_roundtrip '/' _ hS hslash]
        rw [show cleanSegsAux true [] ([] :: cleanSegsAux true [] (splitOnChar '/' p)) =
            cleanSegsAux true [] (cleanSegsAux true [] (splitOnChar '/' p)) from by
          simp only [cleanSegsAux]; rw [if_pos (by simp)]]
        rw [cleanSegsAux_normal true _ [] hnormal]
        simp
    · -- relative path
      have hr2 : isRootedPath p = false := by revert hr; cases isRootedPath p <;> simp
      have hgc : goClean p =
          if cleanSegsAux false [] (splitOnChar '/' p) = [] then ['.']
          else joinSep '/' (cleanSegsAux false [] (splitOnChar '/' p)) := by
        unfold goClean
        rw [if_neg hp, hr2]
        simp
      have hslash : ∀ s ∈ cleanSegsAux false [] (splitOnChar '/' p), ¬ '/' ∈ s := by
        intro s hs
        rcases cleanSegsAux_members false (splitOnChar '/' p) [] s hs with h | h | h
        · exact absurd h (List.not_mem_nil s)
        · exact hsplit_mem s h
        · subst h; decide
      obtain ⟨k2, ns2, hshape, hns2⟩ := cleanSegsAux_nonrooted_shape (splitOnChar '/' p) [] 0
        (by intro x hx; exact absurd hx (List.not_mem_nil x))
      rw [List.nil_append, List.replicate_zero] at hshape
      by_cases hS : cleanSegsAux false [] (splitOnChar '/' p) = []
      · rw [hgc, if_pos hS]; decide
      · rw [hgc, if_neg hS]
        have hne_each : ∀ s ∈ cleanSegsAux false [] (splitOnChar '/' p), ¬ s = [] := by
          intro s hs
          rw [hshape] at hs
          rcases List.mem_append.mp hs with h | h
          · rw [List.eq_of_mem_replicate h]; simp
          · exact (hns2 s h).1
        obtain ⟨s0, Srest, hcons⟩ : ∃ s0 Srest,
            cleanSegsAux false [] (splitOnChar '/' p) = s0 :: Srest := by
          cases hc : cleanSegsAux false [] (splitOnChar '/' p) with
          | nil => exact absurd hc hS
          | cons a b => exact ⟨a, b, rfl⟩
        have hs0_ne : ¬ s0 = [] := hne_each s0 (hcons ▸ List.mem_cons_self s0 Srest)
        have hs0_slash : ¬ '/' ∈ s0 := hslash s0 (hcons ▸ List.mem_cons_self s0 Srest)
        have hout_ne : ¬ joinSep '/' (cleanSegsAux false [] (splitOnChar '/' p)) = [] := by
          rw [hcons]; exact joinSep_ne_nil '/' s0 Srest hs0_ne
        have hout_rooted : isRootedPath
            (joinSep '/' (cleanSegsAux false [] (splitOnChar '/' p))) = false := by
          simp only [isRootedPath, decide_eq_false_iff_not]
          rw [hcons, joinSep_head '/' s0 Srest hs0_ne]
          cases s0 with
          | nil => exact absurd rfl hs0_ne
          | cons a s3 =>
            simp only [List.head?_cons, Option.some.injEq]
            intro ha
            exact hs0_slash (ha ▸ List.mem_cons_self a s3)
        rw [show goClean (joinSep '/' (cleanSegsAux false [] (splitOnChar '/' p))) =
            (if cleanSegsAux false []
                (splitOnChar '/' (joinSep '/' (cleanSegsAux false [] (splitOnChar '/' p)))) = []
              then ['.']
              else joinSep '/' (cleanSegsAux false []
                (splitOnChar '/' (joinSep '/' (cleanSegsAux false [] (splitOnChar '/' p))))))
            from by unfold goClean; rw [if_neg hout_ne, hout_rooted]; simp]
        rw [joinSep_split_roundtrip '/' _ hS hslash]
        rw [show cleanSegsAux false [] (cleanSegsAux false [] (splitOnChar '/' p)) =
            cleanSegsAux false [] (splitOnChar '/' p) from by
          conv_lhs => rw [hshape]
          have hdd := cleanSegsAux_dd_block k2 ns2 0 hns2
          simp only [List.replicate_zero, Nat.zero_add] at hdd
          rw [hdd, ← hshape]]
        rw [if_neg hS]

/-- C2 (amended): every successfully resolved mailbox or folder path
satisfies the path-separator-bounded prefix match against the
normalized base directory (descendant-or-equal — equality is reachable,
see the counterexample), and a mailbox identifier that fails the check
is rejected with the traversal error; path resolution is pure, so the
rejection happens before any filesystem write. -/
theorem resolved_paths_stay_under_base (s : MaildirStore) (mailbox folder : Str) :
    (∀ p, mailboxPath s mailbox = .ok p → sepBoundedUnder (goClean s.basePath) p = true) ∧
    (∀ e, mailboxPath s mailbox = .error e → e = .pathTraversal) ∧
    (∀ q, folderPath s mailbox folder = .ok q →
      sepBoundedUnder (goClean s.basePath) q = true) := by
  have hmb : ∀ p, mailboxPath s mailbox = .ok p →
      sepBoundedUnder (goClean s.basePath) p = true := by
    intro p hp
    unfold mailboxPath at hp
    by_cases h : (goClean s.basePath ++ ['/']).isPrefixOf
        (goClean (mailboxCandidate s mailbox) ++ ['/']) = true
    · rw [if_neg (fun hh => hh h)] at hp
      cases hp
      exact h
    · rw [if_pos (by simpa using h)] at hp
      exact absurd hp (by simp)
  refine ⟨hmb, ?_, ?_⟩
  · intro e he
    unfold mailboxPath at he
    by_cases h : (goClean s.basePath ++ ['/']).isPrefixOf
        (goClean (mailboxCandidate s mailbox) ++ ['/']) = true
    · rw [if_neg (fun hh => hh h)] at he
      exact absurd he (by simp)
    · rw [if_pos (by simpa using h)] at he
      cases he
      rfl
  · intro q hq
    unfold folderPath at hq
    cases hval : validateFolderName folder with
    | error e => rw [hval] at hq; exact absurd hq (by simp)
    | ok u =>
      rw [hval] at hq
      cases hmp : mailboxPath s mailbox with
      | error e => rw [hmp] at hq; exact absurd hq (by simp)
      | ok mp =>
        rw [hmp] at hq
        simp only at hq
        by_cases h : (goClean mp ++ ['/']).isPrefixOf
            (goClean (goJoin [mp, '.' :: folder]) ++ ['/']) = true
        · rw [if_neg (fun hh => hh h)] at hq
          cases hq
          have h1 := hmb mp hmp
          have h2 : mp = goClean (mailboxCandidate s mailbox) := by
            unfold mailboxPath at hmp
            by_cases hc : (goClean s.basePath ++ ['/']).isPrefixOf
                (goClean (mailboxCandidate s mailbox) ++ ['/']) = true
            · rw [if_neg (fun hh => hh hc)] at hmp
              cases hmp; rfl
            · rw [if_pos (by simpa using hc)] at hmp
              exact absurd hmp (by simp)
          have hclean : goClean mp = mp := by rw [h2, goClean_idem]
          simp only [sepBoundedUnder] at h1 ⊢
          rw [hclean] at h
          exact isPrefixOf_trans h1 h
        · rw [if_pos (by simpa using h)] at hq
          exact absurd hq (by simp)

/-- C2 witness: concrete resolutions through `resolved_paths_stay_under_base`. -/
theorem resolved_paths_witness :
    mailboxPath demoStore ("alice".toList) = .ok ("/base/alice".toList) ∧
    folderPath demoStore ("alice".toList) ("Sent".toList) = .ok ("/base/alice/.Sent".toList) ∧
    sepBoundedUnder (goClean demoStore.basePath) ("/base/alice".toList) = true ∧
    sepBoundedUnder (goClean demoStore.basePath) ("/base/alice/.Sent".toList) = true := by
  refine ⟨by decide, by decide, ?_, ?_⟩
  · exact (resolved_paths_stay_under_base demoStore ("alice".toList) ("Sent".toList)).1
      _ (by decide)
  · exact (resolved_paths_stay_under_base demoStore ("alice".toList) ("Sent".toList)).2.2
      _ (by decide)

/-- C2 counterexample: the identifier `.` resolves to the base directory
itself, which passes the store's separator-bounded check but is NOT a
strict descendant of the base — refuting the claim's "strict
descendant". -/
theorem resolved_path_strictness_counterexample :
    mailboxPath demoStore (".".toList) = .ok ("/base".toList) ∧
    strictDescendant (goClean demoStore.basePath) ("/base".toList) = false := by
  decide

/-- C10: `Delete` succeeds for every mailbox and UID — including
mailboxes absent from disk, UIDs not present, and UIDs already marked —
records the pair in the deletion map, and leaves the filesystem
untouched; it can never report not-found. -/
theorem delete_always_succeeds (dm : DeletedMap) (fs : FS) (mailbox uid : Str) :
    Delete dm fs mailbox uid = ((mailbox, uid) :: dm, fs, .ok ()) := rfl

/-- C8: `UIDValidity` never returns zero on success, and for any
non-INBOX folder the token is a fixed deterministic function of the
folder's canonical name alone (the FNV-1a hash of the name with the
maildir flag suffix stripped) — identical on every call within a
process and independent of the store and mailbox. -/
theorem uidToken_ne_zero (name0 : Str) : ¬ uidTokenOfName name0 = 0 := by
  simp only [uidTokenOfName]
  split
  · omega
  · next h => exact h

theorem uidValidity_nonzero_deterministic (s : MaildirStore) (mailbox folder : Str) :
    (∀ v, UIDValidity s mailbox folder = .ok v → ¬ v = 0) ∧
    (¬ lowerStr folder = lowerStr ("INBOX".toList) →
      UIDValidity s mailbox folder = .ok (uidTokenOfName folder)) := by
  constructor
  · intro v hv
    unfold UIDValidity at hv
    by_cases hinb : lowerStr folder = lowerStr ("INBOX".toList)
    · rw [if_pos hinb] at hv
      cases hmp : mailboxPath s mailbox with
      | error e => rw [hmp] at hv; exact absurd hv (by simp)
      | ok path =>
        rw [hmp] at hv
        simp only at hv
        cases hv
        exact uidToken_ne_zero _
    · rw [if_neg hinb] at hv
      cases hv
      exact uidToken_ne_zero _
  · intro h
    unfold UIDValidity
    rw [if_neg h]

/-- C8 witness: the folder `Sent` gets the concrete non-zero token
3800955807 through `uidValidity_nonzero_deterministic`. -/
theorem uidValidity_witness :
    UIDValidity demoStore ("alice".toList) ("Sent".toList) = .ok 3800955807 ∧
    ¬ (3800955807 : Nat) = 0 := by
  have h := uidValidity_nonzero_deterministic demoStore ("alice".toList) ("Sent".toList)
  have h2 : UIDValidity demoStore ("alice".toList) ("Sent".toList) = .ok 3800955807 := by
    rw [h.2 (by decide)]
    decide
  exact ⟨h2, h.1 _ h2⟩

theorem append_nul_inj : ∀ m1 m2 f1 f2 : Str, ¬ Char.ofNat 0 ∈ m1 → ¬ Char.ofNat 0 ∈ m2 →
    m1 ++ Char.ofNat 0 :: f1 = m2 ++ Char.ofNat 0 :: f2 → m1 = m2 ∧ f1 = f2 := by
  intro m1
  induction m1 with
  | nil =>
    intro m2 f1 f2 _ h2 heq
    cases m2 with
    | nil => simpa using heq
    | cons c m2 =>
      simp only [List.nil_append, List.cons_append, List.cons.injEq] at heq
      exact absurd (heq.1 ▸ List.mem_cons_self c m2) h2
  | cons c m1 ih =>
    intro m2 f1 f2 h1 h2 heq
    cases m2 with
    | nil =>
      simp only [List.cons_append, List.nil_append, List.cons.injEq] at heq
      exact absurd (heq.1.symm ▸ List.mem_cons_self c m1) h1
    | cons c2 m2 =>
      simp only [List.cons_append, List.cons.injEq] at heq
      have hr := ih m2 f1 f2 (fun h => h1 (List.mem_cons_of_mem _ h))
        (fun h => h2 (List.mem_cons_of_mem _ h)) heq.2
      exact ⟨by rw [heq.1, hr.1], hr.2⟩

/-- C9: composite deletion keys of distinct containers are distinct (for
NUL-free mailbox names): two different (mailbox, folder) pairs yield
different keys, a folder key never equals a plain mailbox key, and
marking a UID deleted under one key leaves `isDeleted` unchanged for
every other key. -/
theorem deletion_keys_disjoint (m1 f1 m2 f2 mp uid : Str) (dm : DeletedMap)
    (h1 : ¬ Char.ofNat 0 ∈ m1) (h2 : ¬ Char.ofNat 0 ∈ m2) (hmp : ¬ Char.ofNat 0 ∈ mp)
    (hne : ¬ (m1 = m2 ∧ f1 = f2)) :
    ¬ folderDeletionKey m1 f1 = folderDeletionKey m2 f2 ∧
    ¬ folderDeletionKey m1 f1 = mp ∧
    (∀ k2 uid2, ¬ k2 = folderDeletionKey m1 f1 →
      isDeleted ((folderDeletionKey m1 f1, uid) :: dm) k2 uid2 = isDeleted dm k2 uid2) := by
  refine ⟨?_, ?_, ?_⟩
  · intro heq
    exact hne (append_nul_inj m1 m2 f1 f2 h1 h2 heq)
  · intro heq
    apply hmp
    rw [← heq]
    simp [folderDeletionKey]
  · intro k2 uid2 hk
    simp only [isDeleted]
    rw [decide_eq_decide]
    simp only [List.mem_cons, Prod.mk.injEq]
    constructor
    · rintro (⟨hk2, _⟩ | h)
      · exact absurd hk2 hk
      · exact h
    · intro h; exact Or.inr h

/-- C9 witness: concrete distinct containers through
`deletion_keys_disjoint`. -/
theorem deletion_keys_witness :
    ¬ folderDeletionKey ("alice".toList) ("Sent".toList) =
      folderDeletionKey ("alice".toList) ("Spam".toList) ∧
    ¬ folderDeletionKey ("alice".toList) ("Sent".toList) = ("alice".toList) ∧
    isDeleted [(folderDeletionKey ("alice".toList) ("Sent".toList), "u1".toList)]
      ("alice".toList) ("u1".toList) = isDeleted [] ("alice".toList) ("u1".toList) := by
  have h := deletion_keys_disjoint ("alice".toList) ("Sent".toList) ("alice".toList)
    ("Spam".toList) ("alice".toList) ("u1".toList) [] (by decide) (by decide) (by decide)
    (by decide)
  exact ⟨h.1, h.2.1, h.2.2 _ _ (by decide)⟩

/-- C1: `Delete` only records the (mailbox, UID) pair in the in-memory
deletion map and leaves the filesystem unchanged; `Retrieve` of that UID
through the same store state then fails with the deleted error; and the
message file is removed from disk by a subsequent `Expunge`. -/
theorem delete_then_retrieve_then_expunge (s : MaildirStore) (dm : DeletedMap) (fs : FS)
    (mailbox uid p : Str) (flags : List Char) (content : List Nat)
    (hp : mailboxPath s mailbox = .ok p)
    (hcur : hasDir fs (curDir p) = true)
    (hmsg : (⟨p, false, uid, flags, content⟩ : Msg) ∈ fs.msgs) :
    Delete dm fs mailbox uid = ((mailbox, uid) :: dm, fs, .ok ()) ∧
    Retrieve s ((mailbox, uid) :: dm) fs mailbox uid = .error .messageDeleted ∧
    (∃ dm2 fs2, Expunge s ((mailbox, uid) :: dm) fs mailbox = (dm2, fs2, .ok ()) ∧
      ¬ (⟨p, false, uid, flags, content⟩ : Msg) ∈ fs2.msgs) := by
  refine ⟨rfl, ?_, ?_⟩
  · simp [Retrieve, isDeleted]
  · have hfil : ((mailbox, uid) :: dm).filter (fun q => q.1 = mailbox) =
        (mailbox, uid) :: dm.filter (fun q => q.1 = mailbox) := by
      simp [List.filter_cons]
    have hstep : Expunge s ((mailbox, uid) :: dm) fs mailbox =
        (((mailbox, uid) :: dm).filter (fun q => ¬ q.1 = mailbox),
         removeMessages fs p
           ((((mailbox, uid) :: dm).filter (fun q => q.1 = mailbox)).map (fun q => q.2)),
         .ok ()) := by
      unfold Expunge
      rw [hfil, if_neg (by simp), hp]
      dsimp only
      rw [if_neg (by simp [hcur]), ← hfil]
    refine ⟨_, _, hstep, ?_⟩
    intro hmem
    simp only [removeMessages, List.mem_filter] at hmem
    have h2 := hmem.2
    rw [hfil] at h2
    simp only [List.map_cons, decide_eq_true_eq, Bool.not_eq_true,
      decide_eq_false_iff_not] at h2
    exact h2 (by simp)

/-- C1 witness: the concrete message `u1` in mailbox `alice` through
`delete_then_retrieve_then_expunge`. -/
theorem delete_then_retrieve_then_expunge_witness :
    mailboxPath demoStore ("alice".toList) = .ok ("/base/alice".toList) ∧
    hasDir demoFS (curDir ("/base/alice".toList)) = true ∧
    (Delete [] demoFS ("alice".toList) ("u1".toList) =
        ((("alice".toList, "u1".toList)) :: [], demoFS, .ok ()) ∧
      Retrieve demoStore [(("alice".toList, "u1".toList))] demoFS ("alice".toList)
        ("u1".toList) = .error .messageDeleted ∧
      (∃ dm2 fs2, Expunge demoStore [(("alice".toList, "u1".toList))] demoFS
          ("alice".toList) = (dm2, fs2, .ok ()) ∧
        ¬ (⟨"/base/alice".toList, false, "u1".toList, [], [72, 105]⟩ : Msg) ∈ fs2.msgs)) :=
  ⟨by decide, by decide,
   delete_then_retrieve_then_expunge demoStore [] demoFS ("alice".toList) ("u1".toList)
     ("/base/alice".toList) [] [72, 105] (by decide) (by decide) (by decide)⟩

/-- C3 (amended): for every sealed-box implementation satisfying the
library contract, encryption for a matching X25519 key pair round-trips:
the output is laid out `ephemeral_pub(32) || nonce(24) ||
ciphertext(len+16)`, decryption returns exactly the message, decryption
with a private key whose public key differs fails with the decryption
error and no partial plaintext, and any input shorter than 72 bytes
(the 56-byte header plus the 16-byte tag) is rejected. -/
theorem encrypt_decrypt_roundtrip (B : NaclBox) (hB : NaclBoxProps B)
    (skR ephPriv nonce message : List Nat)
    (hsk : skR.length = 32) (hn : nonce.length = 24) :
    ∃ out, encryptMessage B ephPriv nonce message (B.pub skR) = .ok out ∧
      out = B.pub ephPriv ++ nonce ++ B.sealBox message nonce (B.pub skR) ephPriv ∧
      out.length = 32 + 24 + (message.length + 16) ∧
      DecryptMessage B out skR = .ok message ∧
      (∀ skR2, skR2.length = 32 → ¬ B.pub skR2 = B.pub skR →
        DecryptMessage B out skR2 = .error .decryptionFailed) ∧
      (∀ data : List Nat, data.length < 72 →
        DecryptMessage B data skR = .error .dataTooShort) := by
  have hosize : (B.pub ephPriv ++ nonce ++ B.sealBox message nonce (B.pub skR) ephPriv).length
      = 32 + 24 + (message.length + 16) := by
    simp [hB.pub_len, hn, hB.seal_len]
    omega
  have htake32 : (B.pub ephPriv ++ nonce ++ B.sealBox message nonce (B.pub skR) ephPriv).take 32
      = B.pub ephPriv := by
    rw [List.append_assoc, show (32 : Nat) = (B.pub ephPriv).length from
      (hB.pub_len ephPriv).symm]
    exact List.take_left _ _
  have hdrop32 : (B.pub ephPriv ++ nonce ++ B.sealBox message nonce (B.pub skR) ephPriv).drop 32
      = nonce ++ B.sealBox message nonce (B.pub skR) ephPriv := by
    rw [List.append_assoc, show (32 : Nat) = (B.pub ephPriv).length from
      (hB.pub_len ephPriv).symm]
    exact List.drop_left _ _
  have htake24 : ((B.pub ephPriv ++ nonce ++
      B.sealBox message nonce (B.pub skR) ephPriv).drop 32).take 24 = nonce := by
    rw [hdrop32, show (24 : Nat) = nonce.length from hn.symm]
    exact List.take_left _ _
  have hdrop56 : (B.pub ephPriv ++ nonce ++ B.sealBox message nonce (B.pub skR) ephPriv).drop 56
      = B.sealBox message nonce (B.pub skR) ephPriv := by
    rw [show (56 : Nat) = 32 + 24 from rfl, ← List.drop_drop, hdrop32,
      show (24 : Nat) = nonce.length from hn.symm]
    exact List.drop_left _ _
  have hdec : ∀ sk2 : List Nat, sk2.length = 32 →
      DecryptMessage B (B.pub ephPriv ++ nonce ++ B.sealBox message nonce (B.pub skR) ephPriv)
        sk2 =
      match B.openBox (B.sealBox message nonce (B.pub skR) ephPriv) nonce (B.pub ephPriv) sk2
        with
      | some plaintext => .ok plaintext
      | none => .error .decryptionFailed := by
    intro sk2 hsk2
    unfold DecryptMessage
    rw [if_neg (fun hh => hh hsk2), if_neg (by rw [hosize]; omega)]
    rw [htake32, htake24, hdrop56]
  refine ⟨_, ?_, rfl, hosize, ?_, ?_, ?_⟩
  · unfold encryptMessage
    rw [if_neg (fun hh => hh (hB.pub_len skR))]
  · rw [hdec skR hsk, hB.open_seal]
  · intro skR2 hsk2 hne
    rw [hdec skR2 hsk2, hB.open_mismatch message nonce skR ephPriv skR2 hne]
  · intro data hshort
    unfold DecryptMessage
    rw [if_neg (fun hh => hh hsk), if_pos (by omega)]

/-- C3 witness: a concrete round-trip through `encrypt_decrypt_roundtrip`
at the concrete sealed-box instance. -/
theorem encrypt_decrypt_roundtrip_witness :
    (List.replicate 32 1 : List Nat).length = 32 ∧
    (List.replicate 24 2 : List Nat).length = 24 ∧
    (∃ out, encryptMessage toyBox (List.replicate 32 3) (List.replicate 24 2) [9, 9]
        (toyBox.pub (List.replicate 32 1)) = .ok out ∧
      out = toyBox.pub (List.replicate 32 3) ++ List.replicate 24 2 ++
        toyBox.sealBox [9, 9] (List.replicate 24 2) (toyBox.pub (List.replicate 32 1))
          (List.replicate 32 3) ∧
      out.length = 32 + 24 + (([9, 9] : List Nat).length + 16) ∧
      DecryptMessage toyBox out (List.replicate 32 1) = .ok [9, 9] ∧
      (∀ skR2, skR2.length = 32 → ¬ toyBox.pub skR2 = toyBox.pub (List.replicate 32 1) →
        DecryptMessage toyBox out skR2 = .error .decryptionFailed) ∧
      (∀ data : List Nat, data.length < 72 →
        DecryptMessage toyBox data (List.replicate 32 1) = .error .dataTooShort)) :=
  ⟨by decide, by decide,
   encrypt_decrypt_roundtrip toyBox toyBox_props (List.replicate 32 1) (List.replicate 32 3)
     (List.replicate 24 2) [9, 9] (by decide) (by decide)⟩

/-- C3 counterexample: a valid 80-byte encrypted message — longer than
the code's 72-byte minimum but SHORTER than "72 bytes plus the tag"
(88 bytes) — decrypts successfully, refuting the claim's stated length
bound. -/
theorem decrypt_below88_counterexample :
    encryptMessage toyBox (List.replicate 32 0) (List.replicate 24 0) [1, 2, 3, 4, 5, 6, 7, 8]
      (toyBox.pub (List.replicate 32 0)) = .ok c3data ∧
    c3data.length = 80 ∧ (80 : Nat) < 72 + 16 ∧
    DecryptMessage toyBox c3data (List.replicate 32 0) = .ok [1, 2, 3, 4, 5, 6, 7, 8] := by
  decide

theorem breakLastChar_none (c : Char) (l : Str) (h : ¬ c ∈ l) : breakLastChar c l = none := by
  induction l with
  | nil => rfl
  | cons x xs ih =>
    have hx : ¬ x = c := fun he => h (he ▸ List.mem_cons_self x xs)
    have hxs : ¬ c ∈ xs := fun hc => h (List.mem_cons_of_mem x hc)
    simp only [breakLastChar, ih hxs]
    rw [if_neg hx]

theorem breakLastChar_append (c : Char) (pre post : Str) (h : ¬ c ∈ post) :
    breakLastChar c (pre ++ c :: post) = some (pre, post) := by
  induction pre with
  | nil =>
    simp only [List.nil_append, breakLastChar, breakLastChar_none c post h]
    simp
  | cons x xs ih =>
    show breakLastChar c (x :: (xs ++ c :: post)) = some (x :: xs, post)
    simp only [breakLastChar, ih]

theorem cutChar_append (c : Char) (pre post : Str) (h : ¬ c ∈ pre) :
    cutChar c (pre ++ c :: post) = (pre, post, true) := by
  induction pre with
  | nil =>
    simp [cutChar]
  | cons x xs ih =>
    have hx : ¬ x = c := fun he => h (he ▸ List.mem_cons_self x xs)
    have hxs : ¬ c ∈ xs := fun hc => h (List.mem_cons_of_mem x hc)
    show cutChar c (x :: (xs ++ c :: post)) = (x :: xs, post, true)
    simp only [cutChar, ih hxs]
    rw [if_neg hx]

theorem parseRecipient_ext (u e d : Str) (hu1 : ¬ '@' ∈ u) (he1 : ¬ '@' ∈ e)
    (hd1 : ¬ '@' ∈ d) (hu2 : ¬ '+' ∈ u) :
    parseRecipient (u ++ '+' :: (e ++ '@' :: d)) = (u ++ '@' :: d, e) := by
  have hb : breakLastChar '@' (u ++ '+' :: (e ++ '@' :: d)) = some (u ++ '+' :: e, d) := by
    rw [show u ++ '+' :: (e ++ '@' :: d) = (u ++ '+' :: e) ++ '@' :: d from by simp]
    exact breakLastChar_append '@' (u ++ '+' :: e) d hd1
  have hc : cutChar '+' (u ++ '+' :: e) = (u, e, true) := cutChar_append '+' u e hu2
  simp only [parseRecipient, hb, hc]

/-- C4: delivery to `user+ext@domain` parses to the base address plus
extension; the message lands in the extension's folder when that folder
already exists, otherwise in the inbox of the base address (created on
first use); and the only directories a delivery ever creates are the
maildir structure of the base address's resolved mailbox path — never
the folder, and never a mailbox for the literal `user+ext@domain`
string. -/
theorem deliver_subaddress_routing (s : MaildirStore) (fs : FS) (name : Str) (data : List Nat)
    (u e d : Str) (hu1 : ¬ '@' ∈ u) (he1 : ¬ '@' ∈ e) (hd1 : ¬ '@' ∈ d) (hu2 : ¬ '+' ∈ u)
    (hene : ¬ e = []) :
    parseRecipient (u ++ '+' :: (e ++ '@' :: d)) = (u ++ '@' :: d, e) ∧
    (∀ fdir, folderIfExists s fs (u ++ '@' :: d) e = some fdir →
      deliverOne s fs name (u ++ '+' :: (e ++ '@' :: d)) data =
        .ok (maildirDeliver fs fdir name data)) ∧
    (folderIfExists s fs (u ++ '@' :: d) e = none →
      deliverOne s fs name (u ++ '+' :: (e ++ '@' :: d)) data =
        (match ensureMaildir s fs (u ++ '@' :: d) with
         | (_, .error er) => .error er
         | (fs1, .ok path) => .ok (maildirDeliver fs1 path name data))) ∧
    (∀ fs2, deliverOne s fs name (u ++ '+' :: (e ++ '@' :: d)) data = .ok fs2 →
      ∀ dp ∈ fs2.dirs, dp ∈ fs.dirs ∨
        ∃ p, mailboxPath s (u ++ '@' :: d) = .ok p ∧ dp ∈ maildirDirs p) := by
  have hparse := parseRecipient_ext u e d hu1 he1 hd1 hu2
  have hstep : deliverOne s fs name (u ++ '+' :: (e ++ '@' :: d)) data =
      (match folderIfExists s fs (u ++ '@' :: d) e with
       | some dir => .ok (maildirDeliver fs dir name data)
       | none =>
         (match ensureMaildir s fs (u ++ '@' :: d) with
          | (_, .error er) => .error er
          | (fs1, .ok path) => .ok (maildirDeliver fs1 path name data))) := by
    unfold deliverOne
    rw [hparse]
    dsimp only
    rw [if_pos hene]
  refine ⟨hparse, ?_, ?_, ?_⟩
  · intro fdir hf
    rw [hstep, hf]
  · intro hf
    rw [hstep, hf]
  · intro fs2 hok dp hdp
    rw [hstep] at hok
    cases hf : folderIfExists s fs (u ++ '@' :: d) e with
    | some fdir =>
      rw [hf] at hok
      cases hok
      exact Or.inl hdp
    | none =>
      rw [hf] at hok
      cases hmb : mailboxPath s (u ++ '@' :: d) with
      | error er =>
        have : ensureMaildir s fs (u ++ '@' :: d) = (fs, .error er) := by
          unfold ensureMaildir; rw [hmb]
        rw [this] at hok
        exact absurd hok (by simp)
      | ok p =>
        by_cases hcur : hasDir fs (curDir p) = true
        · have hens : ensureMaildir s fs (u ++ '@' :: d) = (fs, .ok p) := by
            unfold ensureMaildir; rw [hmb]; dsimp only; rw [if_pos hcur]
          rw [hens] at hok
          cases hok
          exact Or.inl hdp
        · have hens : ensureMaildir s fs (u ++ '@' :: d) =
              ({ fs with dirs := fs.dirs ++ maildirDirs p }, .ok p) := by
            unfold ensureMaildir; rw [hmb]; dsimp only; rw [if_neg hcur]
          rw [hens] at hok
          cases hok
          rcases List.mem_append.mp hdp with h | h
          · exact Or.inl h
          · exact Or.inr ⟨p, rfl, h⟩

/-- C4 witness: concrete routing through `deliver_subaddress_routing` —
for `alice+Sent@test` with the folder existing versus absent. -/
theorem deliver_subaddress_routing_witness :
    parseRecipient ("alice+Sent".toList ++ '@' :: "test".toList) =
      ("alice".toList ++ '@' :: "test".toList, "Sent".toList) ∧
    (∀ fdir, folderIfExists demoStore demoFS ("alice".toList ++ '@' :: "test".toList)
        ("Sent".toList) = some fdir →
      deliverOne demoStore demoFS ("n1".toList)
          ("alice+Sent".toList ++ '@' :: "test".toList) [65] =
        .ok (maildirDeliver demoFS fdir ("n1".toList) [65])) := by
  have h := deliver_subaddress_routing demoStore demoFS ("n1".toList) [65]
    ("alice".toList) ("Sent".toList) ("test".toList)
    (by decide) (by decide) (by decide) (by decide) (by decide)
  exact ⟨h.1, h.2.1⟩

theorem mailboxPath_error_traversal (s : MaildirStore) (mailbox : Str) (e : MErr)
    (he : mailboxPath s mailbox = .error e) : e = .pathTraversal := by
  unfold mailboxPath at he
  by_cases h : (goClean s.basePath ++ ['/']).isPrefixOf
      (goClean (mailboxCandidate s mailbox) ++ ['/']) = true
  · rw [if_neg (fun hh => hh h)] at he
    exact absurd he (by simp)
  · rw [if_pos (by simpa using h)] at he
    cases he
    rfl

theorem deliverOne_fail (s : MaildirStore) (fs : FS) (name r : Str) (data : List Nat)
    (h : recipOK s r = false) :
    deliverOne s fs name r data = .error .pathTraversal := by
  cases hmb : mailboxPath s (parseRecipient r).1 with
  | ok p =>
    rw [recipOK, hmb] at h
    exact absurd h (by simp [Except.isOk, Except.toBool])
  | error e =>
    have he := mailboxPath_error_traversal _ _ _ hmb
    subst he
    have hfie : folderIfExists s fs (parseRecipient r).1 (parseRecipient r).2 = none := by
      unfold folderIfExists folderPath
      cases hv : validateFolderName (parseRecipient r).2 with
      | error e2 => rfl
      | ok u => rw [hmb]
    unfold deliverOne
    dsimp only
    by_cases hext : ¬ (parseRecipient r).2 = []
    · rw [if_pos hext, hfie]
      dsimp only
      rw [show ensureMaildir s fs (parseRecipient r).1 = (fs, .error .pathTraversal) from by
        unfold ensureMaildir; rw [hmb]]
    · rw [if_neg hext]
      dsimp only
      rw [show ensureMaildir s fs (parseRecipient r).1 = (fs, .error .pathTraversal) from by
        unfold ensureMaildir; rw [hmb]]

theorem deliverOne_ok (s : MaildirStore) (fs : FS) (name r : Str) (data : List Nat)
    (h : recipOK s r = true) : ∃ fs2, deliverOne s fs name r data = .ok fs2 := by
  unfold deliverOne
  dsimp only
  cases hd : (if ¬ (parseRecipient r).2 = [] then
      folderIfExists s fs (parseRecipient r).1 (parseRecipient r).2 else none) with
  | some dir => exact ⟨_, rfl⟩
  | none =>
    cases hmb : mailboxPath s (parseRecipient r).1 with
    | error e =>
      rw [recipOK, hmb] at h
      exact absurd h (by simp [Except.isOk, Except.toBool])
    | ok p =>
      dsimp only
      by_cases hcur : hasDir fs (curDir p) = true
      · rw [show ensureMaildir s fs (parseRecipient r).1 = (fs, .ok p) from by
          unfold ensureMaildir; rw [hmb]; dsimp only; rw [if_pos hcur]]
        exact ⟨_, rfl⟩
      · rw [show ensureMaildir s fs (parseRecipient r).1 =
            ({ fs with dirs := fs.dirs ++ maildirDirs p }, .ok p) from by
          unfold ensureMaildir; rw [hmb]; dsimp only; rw [if_neg hcur]]
        exact ⟨_, rfl⟩

theorem deliverLoop_all_fail (s : MaildirStore) (data : List Nat) (names : Nat → Str) :
    ∀ (rs : List Str) (i : Nat) (fs : FS) (delivered : Nat), ¬ rs = [] →
      (∀ r ∈ rs, recipOK s r = false) →
      ∀ lastErr, deliverLoop s data names i fs lastErr delivered rs =
        (fs, some .pathTraversal, delivered) := by
  intro rs
  induction rs with
  | nil => intro i fs delivered hne; exact absurd rfl hne
  | cons r rest ih =>
    intro i fs delivered _ hall lastErr
    have hr := hall r (List.mem_cons_self r rest)
    simp only [deliverLoop, deliverOne_fail s fs (names i) r data hr]
    cases rest with
    | nil => rfl
    | cons r2 rest2 =>
      exact ih (i + 1) fs delivered (by simp)
        (fun x hx => hall x (List.mem_cons_of_mem r hx)) (some .pathTraversal)

theorem deliverLoop_delivered_le (s : MaildirStore) (data : List Nat) (names : Nat → Str) :
    ∀ (rs : List Str) (i : Nat) (fs : FS) (lastErr : Option MErr) (delivered : Nat),
      delivered ≤ (deliverLoop s data names i fs lastErr delivered rs).2.2 := by
  intro rs
  induction rs with
  | nil => intro i fs lastErr delivered; exact Nat.le_refl _
  | cons r rest ih =>
    intro i fs lastErr delivered
    simp only [deliverLoop]
    cases hone : deliverOne s fs (names i) r data with
    | error e => exact ih (i + 1) fs (some e) delivered
    | ok fs2 => exact Nat.le_trans (Nat.le_succ _) (ih (i + 1) fs2 lastErr (delivered + 1))

theorem deliverLoop_some_ok (s : MaildirStore) (data : List Nat) (names : Nat → Str) :
    ∀ (rs : List Str) (i : Nat) (fs : FS) (lastErr : Option MErr) (delivered : Nat),
      (∃ r ∈ rs, recipOK s r = true) →
      delivered < (deliverLoop s data names i fs lastErr delivered rs).2.2 := by
  intro rs
  induction rs with
  | nil =>
    intro i fs lastErr delivered h
    obtain ⟨r, hr, _⟩ := h
    exact absurd hr (List.not_mem_nil r)
  | cons r rest ih =>
    intro i fs lastErr delivered h
    simp only [deliverLoop]
    cases hone : deliverOne s fs (names i) r data with
    | error e =>
      obtain ⟨r2, hr2, hok2⟩ := h
      rcases List.mem_cons.mp hr2 with rfl | hmem
      · obtain ⟨fs3, h3⟩ := deliverOne_ok s fs (names i) r2 data hok2
        rw [h3] at hone
        exact absurd hone (by simp)
      · exact ih (i + 1) fs (some e) delivered ⟨r2, hmem, hok2⟩
    | ok fs2 =>
      exact Nat.lt_of_lt_of_le (Nat.lt_succ_self _)
        (deliverLoop_delivered_le s data names rest (i + 1) fs2 lastErr (delivered + 1))

/-- C5: `Deliver` with an empty recipient list fails with the
no-recipients error and leaves the filesystem untouched; with a
non-empty list it succeeds as soon as at least one recipient is
deliverable (per-recipient errors are discarded), and it fails — with
the last per-recipient error — exactly when every recipient fails. -/
theorem deliver_partial_failure (s : MaildirStore) (names : Nat → Str) (fs : FS)
    (data : List Nat) (rs : List Str) :
    Deliver s names fs [] data = (fs, .error .noRecipients) ∧
    (¬ rs = [] → (∃ r ∈ rs, recipOK s r = true) →
      (Deliver s names fs rs data).2 = .ok ()) ∧
    (¬ rs = [] → (∀ r ∈ rs, recipOK s r = false) →
      Deliver s names fs rs data = (fs, .error .pathTraversal) ∧
      (∀ last, rs.getLast? = some last →
        mailboxPath s (parseRecipient last).1 = .error .pathTraversal)) := by
  refine ⟨rfl, ?_, ?_⟩
  · intro hne hex
    unfold Deliver
    rw [if_neg hne]
    have := deliverLoop_some_ok s data names rs 0 fs none 0 hex
    rw [if_neg (by omega)]
  · intro hne hall
    constructor
    · unfold Deliver
      rw [if_neg hne, deliverLoop_all_fail s data names rs 0 fs 0 hne hall none]
      rfl
    · intro last hlast
      have hmem : last ∈ rs := by
        have hx : last ∈ rs.getLast? := by rw [Option.mem_def]; exact hlast
        obtain ⟨hne2, heq⟩ := List.mem_getLast?_eq_getLast hx
        exact heq ▸ List.getLast_mem hne2
      have hko := hall last hmem
      cases hmb : mailboxPath s (parseRecipient last).1 with
      | ok p =>
        rw [recipOK, hmb] at hko
        exact absurd hko (by simp [Except.isOk, Except.toBool])
      | error e =>
        rw [mailboxPath_error_traversal s (parseRecipient last).1 e hmb]

/-- C5 witness: concrete recipient lists through
`deliver_partial_failure` — one deliverable recipient among a failing
one, and an all-failing list. -/
theorem deliver_partial_failure_witness :
    (¬ (["..".toList, "alice".toList] : List Str) = []) ∧
    (∃ r ∈ (["..".toList, "alice".toList] : List Str), recipOK demoStore r = true) ∧
    (Deliver demoStore (fun i => ("m".toList) ++ [Char.ofNat (48 + i)]) demoFS
      ["..".toList, "alice".toList] [66]).2 = .ok () := by
  refine ⟨by decide, ⟨"alice".toList, by decide, by decide⟩, ?_⟩
  exact (deliver_partial_failure demoStore (fun i => ("m".toList) ++ [Char.ofNat (48 + i)])
    demoFS [66] ["..".toList, "alice".toList]).2.1 (by decide)
    ⟨"alice".toList, by decide, by decide⟩

theorem classify_plain_of_errored (kp : KeyProvider) :
    ∀ (rs : List Str) (r : Str), r ∈ rs → lookupErrored kp r →
      r ∈ (classifyRecipients kp rs).1 := by
  intro rs
  induction rs with
  | nil => intro r hr; exact absurd hr (List.not_mem_nil r)
  | cons r0 rest ih =>
    intro r hr herr
    simp only [classifyRecipients]
    rcases List.mem_cons.mp hr with rfl | hmem
    · rcases herr with h1 | ⟨h1, h2⟩
      · rw [h1]; exact List.mem_cons_self r _
      · rw [h1, h2]; exact List.mem_cons_self r _
    · have htail := ih r hmem herr
      cases hhe : kp.hasEncryption (extractUsername r0) with
      | error e => exact List.mem_cons_of_mem r0 htail
      | ok b =>
        cases b with
        | false => exact List.mem_cons_of_mem r0 htail
        | true =>
          cases hpk : kp.getPublicKey (extractUsername r0) with
          | error e => exact List.mem_cons_of_mem r0 htail
          | ok k => exact htail

theorem classify_encs_char (kp : KeyProvider) :
    ∀ (rs : List Str) (q : Str × List Nat), q ∈ (classifyRecipients kp rs).2 →
      kp.hasEncryption (extractUsername q.1) = .ok true ∧
      kp.getPublicKey (extractUsername q.1) = .ok q.2 := by
  intro rs
  induction rs with
  | nil => intro q hq; exact absurd hq (List.not_mem_nil q)
  | cons r0 rest ih =>
    intro q hq
    simp only [classifyRecipients] at hq
    cases hhe : kp.hasEncryption (extractUsername r0) with
    | error e => rw [hhe] at hq; exact ih q hq
    | ok b =>
      cases b with
      | false => rw [hhe] at hq; exact ih q hq
      | true =>
        rw [hhe] at hq
        cases hpk : kp.getPublicKey (extractUsername r0) with
        | error e => rw [hpk] at hq; exact ih q hq
        | ok k =>
          rw [hpk] at hq
          rcases List.mem_cons.mp hq with rfl | hmem
          · exact ⟨hhe, hpk⟩
          · exact ih q hmem

theorem encryptedDeliveries_props (B : NaclBox) (data : List Nat)
    (rand : Nat → List Nat × List Nat) :
    ∀ (encs : List (Str × List Nat)) (i : Nat),
      (∀ q ∈ encs, (q.2).length = 32) →
      (encryptedDeliveries B data rand i encs).2 = .ok () ∧
      ((encryptedDeliveries B data rand i encs).1).length = encs.length ∧
      (∀ c ∈ (encryptedDeliveries B data rand i encs).1, c.encrypted = true ∧
        ∃ j r k, c.recipients = [r] ∧ (r, k) ∈ encs ∧
          encryptMessage B (rand j).1 (rand j).2 data k = .ok c.payload) ∧
      (∀ j (hj : j < encs.length),
        ∃ c ∈ (encryptedDeliveries B data rand i encs).1,
          c.recipients = [(encs.get ⟨j, hj⟩).1] ∧
          encryptMessage B (rand (i + j)).1 (rand (i + j)).2 data
            ((encs.get ⟨j, hj⟩).2) = .ok c.payload) := by
  intro encs
  induction encs with
  | nil =>
    intro i h
    refine ⟨rfl, rfl, ?_, ?_⟩
    · intro c hc; exact absurd hc (List.not_mem_nil c)
    · intro j hj; exact absurd hj (by simp)
  | cons q rest ih =>
    intro i h
    obtain ⟨r, k⟩ := q
    have hk : k.length = 32 := h (r, k) (List.mem_cons_self _ _)
    have hpay : encryptMessage B (rand i).1 (rand i).2 data k =
        .ok (B.pub (rand i).1 ++ (rand i).2 ++ B.sealBox data (rand i).2 k (rand i).1) := by
      unfold encryptMessage
      rw [if_neg (fun hh => hh hk)]
    have ihr := ih (i + 1) (fun q2 hq2 => h q2 (List.mem_cons_of_mem _ hq2))
    simp only [encryptedDeliveries, hpay]
    refine ⟨ihr.1, by simp [ihr.2.1], ?_, ?_⟩
    · intro c hc
      rcases List.mem_cons.mp hc with rfl | hc2
      · exact ⟨rfl, i, r, k, rfl, List.mem_cons_self _ _, hpay⟩
      · obtain ⟨he, j, r2, k2, hr2, hmem, hp2⟩ := ihr.2.2.1 c hc2
        exact ⟨he, j, r2, k2, hr2, List.mem_cons_of_mem _ hmem, hp2⟩
    · intro j hj
      cases j with
      | zero =>
        refine ⟨_, List.mem_cons_self _ _, rfl, ?_⟩
        rw [Nat.add_zero]
        exact hpay
      | succ j2 =>
        have hj2 : j2 < rest.length := by simpa using hj
        obtain ⟨c, hc, hrec, hp2⟩ := ihr.2.2.2 j2 hj2
        refine ⟨c, List.mem_cons_of_mem _ hc, hrec, ?_⟩
        rw [show i + (j2 + 1) = i + 1 + j2 from by omega]
        exact hp2

/-- C6: in the encrypting delivery path, every recipient whose
encryption-enabled query or key lookup errors is demoted to the single
plaintext delivery (the call still succeeds); every encrypted delivery
goes to exactly one recipient whose encryption is enabled and whose key
was fetched, encrypted under that key; and the i-th encrypted recipient
uses its own (i-th) ephemeral key pair and nonce from the random
source. -/
theorem encrypting_deliver_fail_open (B : NaclBox) (kp : KeyProvider)
    (rand : Nat → List Nat × List Nat) (rs : List Str) (data : List Nat)
    (hkeys : ∀ q ∈ (classifyRecipients kp rs).2, (q.2).length = 32) :
    (encryptingDeliver B kp rand rs data).2 = .ok () ∧
    (∀ r ∈ rs, lookupErrored kp r →
      r ∈ (classifyRecipients kp rs).1 ∧
      (⟨(classifyRecipients kp rs).1, false, data⟩ : DeliveryCall) ∈
        (encryptingDeliver B kp rand rs data).1) ∧
    (∀ c ∈ (encryptingDeliver B kp rand rs data).1, c.encrypted = true →
      ∃ j r k, c.recipients = [r] ∧
        kp.hasEncryption (extractUsername r) = .ok true ∧
        kp.getPublicKey (extractUsername r) = .ok k ∧
        encryptMessage B (rand j).1 (rand j).2 data k = .ok c.payload) ∧
    (∀ j (hj : j < ((classifyRecipients kp rs).2).length),
      ∃ c ∈ (encryptingDeliver B kp rand rs data).1,
        c.recipients = [(((classifyRecipients kp rs).2).get ⟨j, hj⟩).1] ∧
        encryptMessage B (rand j).1 (rand j).2 data
          ((((classifyRecipients kp rs).2).get ⟨j, hj⟩).2) = .ok c.payload) := by
  have hprops := encryptedDeliveries_props B data rand (classifyRecipients kp rs).2 0 hkeys
  refine ⟨?_, ?_, ?_, ?_⟩
  · show (encryptingDeliver B kp rand rs data).2 = .ok ()
    unfold encryptingDeliver
    exact hprops.1
  · intro r hr herr
    have hplain := classify_plain_of_errored kp rs r hr herr
    refine ⟨hplain, ?_⟩
    unfold encryptingDeliver
    dsimp only
    rw [if_neg (by intro he; rw [he] at hplain; exact List.not_mem_nil r hplain)]
    exact List.mem_append.mpr (Or.inl (List.mem_singleton.mpr rfl))
  · intro c hc henc
    unfold encryptingDeliver at hc
    dsimp only at hc
    rcases List.mem_append.mp hc with h | h
    · by_cases hp : (classifyRecipients kp rs).1 = []
      · rw [if_pos hp] at h
        exact absurd h (List.not_mem_nil c)
      · rw [if_neg hp] at h
        have : c = ⟨(classifyRecipients kp rs).1, false, data⟩ := List.mem_singleton.mp h
        rw [this] at henc
        exact absurd henc (by simp)
    · obtain ⟨_, j, r, k, hrec, hmem, hpay⟩ := hprops.2.2.1 c h
      have hchar := classify_encs_char kp rs (r, k) hmem
      exact ⟨j, r, k, hrec, hchar.1, hchar.2, hpay⟩
  · intro j hj
    obtain ⟨c, hc, hrec, hpay⟩ := hprops.2.2.2 j hj
    refine ⟨c, ?_, hrec, by simpa using hpay⟩
    unfold encryptingDeliver
    dsimp only
    exact List.mem_append.mpr (Or.inr hc)

/-- C6 witness: a three-recipient delivery through
`encrypting_deliver_fail_open`. -/
theorem encrypting_deliver_fail_open_witness :
    (∀ q ∈ (classifyRecipients demoKP
        ["err@x".toList, "bob@x".toList, "enc@x".toList]).2, (q.2).length = 32) ∧
    (encryptingDeliver toyBox demoKP demoRand
      ["err@x".toList, "bob@x".toList, "enc@x".toList] [7]).2 = .ok () ∧
    ("err@x".toList ∈ (classifyRecipients demoKP
      ["err@x".toList, "bob@x".toList, "enc@x".toList]).1) := by
  have h := encrypting_deliver_fail_open toyBox demoKP demoRand
    ["err@x".toList, "bob@x".toList, "enc@x".toList] [7] (by decide)
  refine ⟨by decide, h.1, ?_⟩
  exact (h.2.1 ("err@x".toList) (by decide) (Or.inl (by decide))).1

/-- C7 (amended): with an invalid folder name, every folder operation
that resolves the name up front — CreateFolder, DeleteFolder,
ListInFolder, StatFolder, RetrieveFromFolder, DeleteInFolder,
RenameFolder, AppendToFolder, SetFlagsInFolder, CopyMessage — returns
the invalid-name error with the filesystem and deletion state untouched
(the result is independent of the filesystem, so no filesystem access
happens first); but ExpungeFolder, which consults the deletion map
before validating, returns SUCCESS when nothing is pending under the
folder's key, and DeliverToFolder first ensures (possibly creating) the
parent mailbox and only then fails with the invalid-name error. -/
theorem folder_ops_invalid_name (s : MaildirStore) (dm : DeletedMap) (fs : FS)
    (mailbox folder oth uid name mp : Str) (data : List Nat) (flags : List Str)
    (hbad : validateFolderName folder = .error .invalidFolderName)
    (hni : ¬ lowerStr folder = lowerStr ("INBOX".toList))
    (hnm : dm.filter (fun q => q.1 = folderDeletionKey mailbox folder) = [])
    (hmb : mailboxPath s mailbox = .ok mp) :
    CreateFolder s fs mailbox folder = (fs, .error .invalidFolderName) ∧
    DeleteFolder s dm fs mailbox folder = (dm, fs, .error .invalidFolderName) ∧
    ListInFolder s dm fs mailbox folder = (fs, .error .invalidFolderName) ∧
    StatFolder s dm fs mailbox folder = (fs, .error .invalidFolderName) ∧
    RetrieveFromFolder s dm fs mailbox folder uid = .error .invalidFolderName ∧
    DeleteInFolder dm fs mailbox folder uid = (dm, fs, .error .invalidFolderName) ∧
    RenameFolder s dm fs mailbox folder oth = (dm, fs, .error .invalidFolderName) ∧
    AppendToFolder s fs mailbox folder name data flags = (fs, .error .invalidFolderName) ∧
    SetFlagsInFolder s fs mailbox folder uid flags = (fs, .error .invalidFolderName) ∧
    CopyMessage s fs mailbox folder uid oth name = (fs, .error .invalidFolderName) ∧
    ExpungeFolder s dm fs mailbox folder = (dm, fs, .ok ()) ∧
    DeliverToFolder s fs mailbox folder name data =
      ((ensureMaildir s fs mailbox).1, .error .invalidFolderName) := by
  have hfp : folderPath s mailbox folder = .error .invalidFolderName := by
    unfold folderPath
    rw [hbad]
  have hfoi : folderOrInboxPath s mailbox folder = .error .invalidFolderName := by
    unfold folderOrInboxPath
    rw [if_neg hni, hfp]
  have hdel : isDeleted dm (folderDeletionKey mailbox folder) uid = false := by
    simp only [isDeleted, decide_eq_false_iff_not]
    intro hmem
    have hin : (folderDeletionKey mailbox folder, uid) ∈
        dm.filter (fun q => q.1 = folderDeletionKey mailbox folder) := by
      rw [List.mem_filter]
      exact ⟨hmem, by simp⟩
    rw [hnm] at hin
    exact List.not_mem_nil _ hin
  have hneg : dm.filter (fun q => ¬ q.1 = folderDeletionKey mailbox folder) = dm := by
    apply List.filter_eq_self.mpr
    intro q hq
    simp only [decide_eq_true_eq]
    intro heq
    have hin : q ∈ dm.filter (fun q2 => q2.1 = folderDeletionKey mailbox folder) := by
      rw [List.mem_filter]
      exact ⟨hq, by simp [heq]⟩
    rw [hnm] at hin
    exact List.not_mem_nil _ hin
  have hlist : ListInFolder s dm fs mailbox folder = (fs, .error .invalidFolderName) := by
    unfold ListInFolder; rw [hfp]
  refine ⟨?_, ?_, hlist, ?_, ?_, ?_, ?_, ?_, ?_, ?_, ?_, ?_⟩
  · unfold CreateFolder; rw [hfp]
  · unfold DeleteFolder; rw [hfp]
  · unfold StatFolder; rw [hlist]
  · unfold RetrieveFromFolder
    rw [hdel]
    rw [if_neg (by simp)]
    rw [hfp]
  · unfold DeleteInFolder; rw [hbad]
  · unfold RenameFolder; rw [hfp]
  · unfold AppendToFolder; rw [hfoi]
  · unfold SetFlagsInFolder; rw [hfoi]
  · unfold CopyMessage; rw [hfoi]
  · unfold ExpungeFolder
    dsimp only
    rw [hnm]
    simp only [List.map_nil]
    rw [if_pos trivial, hneg]
  · unfold DeliverToFolder ensureFolderMaildir
    by_cases hcur : hasDir fs (curDir mp) = true
    · rw [show ensureMaildir s fs mailbox = (fs, .ok mp) from by
        unfold ensureMaildir; rw [hmb]; dsimp only; rw [if_pos hcur]]
      rw [hfp]
    · rw [show ensureMaildir s fs mailbox =
          ({ fs with dirs := fs.dirs ++ maildirDirs mp }, .ok mp) from by
        unfold ensureMaildir; rw [hmb]; dsimp only; rw [if_neg hcur]]
      rw [hfp]

/-- C7 witness: the invalid name `cur` on the existing mailbox `alice`
through `folder_ops_invalid_name`. -/
theorem folder_ops_invalid_name_witness :
    validateFolderName ("cur".toList) = .error .invalidFolderName ∧
    CreateFolder demoStore demoFS ("alice".toList) ("cur".toList) =
      (demoFS, .error .invalidFolderName) ∧
    ExpungeFolder demoStore [] demoFS ("alice".toList) ("cur".toList) =
      ([], demoFS, .ok ()) := by
  have h := folder_ops_invalid_name demoStore [] demoFS ("alice".toList) ("cur".toList)
    ("Sent".toList) ("u1".toList) ("n2".toList) ("/base/alice".toList) [67] []
    (by decide) (by decide) (by decide) (by decide)
  exact ⟨by decide, h.1, h.2.2.2.2.2.2.2.2.2.2.1⟩

/-- C7 counterexample: two folder operations that do NOT return the
invalid-name error before any filesystem access: `ExpungeFolder` with
the reserved name `cur` returns success, and `DeliverToFolder` creates
the parent mailbox's directory structure (a filesystem write) before
failing with the invalid-name error. -/
theorem folder_ops_invalid_name_counterexample :
    validateFolderName ("cur".toList) = .error .invalidFolderName ∧
    ExpungeFolder demoStore [] demoFS ("alice".toList) ("cur".toList) =
      ([], demoFS, .ok ()) ∧
    (DeliverToFolder demoStore demoFS ("bob".toList) ("cur".toList) ("n2".toList) [67]).2 =
      .error .invalidFolderName ∧
    ¬ (DeliverToFolder demoStore demoFS ("bob".toList) ("cur".toList) ("n2".toList) [67]).1
      = demoFS := by
  decide

end Msgstore
